import Mathlib

/-!
# Verification of the calunga-ui catalog data layer

A shallow embedding, in Lean 4, of the pure data-shaping code of the
calunga-ui repository:

* `src/client/src/app/utils/version-compare.ts` — `compareVersions`,
  `deduplicateByLatestVersion`;
* the Pulp request serializer and paginated fetcher
  (`serializeRequestParamsForPulp`, `getPulpPaginatedResult`);
* the two catalog loaders of `src/client/src/pages/search/search-context.tsx`
  (progressive loader and name-first loader);
* the `/api` proxy request hook of `src/server/src/proxies.js`.

JavaScript numbers are modelled as exact fractions: the version strings
and query parameters handled by this code stay far below the range where
IEEE-754 double rounding would be observable, and that rounding is the
only behaviour the model abstracts away.  Fallible or impure inputs (HTTP
responses, dates, locale comparison) are passed in as explicit parameters.
-/

namespace Calunga

/-! ## JavaScript primitive semantics

Finite JavaScript numbers are modelled as exact fractions with a positive
denominator (`Frac`).  Mathlib's `ℚ` is not used because its arithmetic is
opaque to the kernel, which would make concrete evaluation by `decide`
impossible. -/

/-- An exact fraction `num / den` with `0 < den`.  Not necessarily in
lowest terms; all predicates on it are cross-multiplication predicates, so
the representative does not matter. -/
structure Frac where
  num : ℤ
  den : ℤ
  dpos : 0 < den

def Frac.ofInt (n : ℤ) : Frac := ⟨n, 1, Int.zero_lt_one⟩

def Frac.neg (x : Frac) : Frac := ⟨-x.num, x.den, x.dpos⟩

def Frac.add (x y : Frac) : Frac :=
  ⟨x.num * y.den + y.num * x.den, x.den * y.den, mul_pos x.dpos y.dpos⟩

def Frac.sub (x y : Frac) : Frac := x.add y.neg

/-- Division by `10 ^ k` (`k : ℕ`). -/
def Frac.divPow10 (x : Frac) (k : ℕ) : Frac :=
  ⟨x.num, x.den * 10 ^ k, mul_pos x.dpos (pow_pos (by omega) k)⟩

/-- Multiplication by `10 ^ e` for an integer exponent `e`. -/
def Frac.mulPow10 (x : Frac) (e : ℤ) : Frac :=
  if 0 ≤ e then ⟨x.num * 10 ^ e.toNat, x.den, x.dpos⟩
  else x.divPow10 (-e).toNat

/-- Division by a positive integer constant. -/
def Frac.divPosInt (x : Frac) (c : ℤ) (h : 0 < c) : Frac :=
  ⟨x.num, x.den * c, mul_pos x.dpos h⟩

/-- Strict order by cross multiplication (sound because denominators are
positive). -/
def Frac.lt (x y : Frac) : Prop := x.num * y.den < y.num * x.den

instance (x y : Frac) : Decidable (x.lt y) :=
  inferInstanceAs (Decidable (x.num * y.den < y.num * x.den))

/-- Value equality by cross multiplication. -/
def Frac.eqv (x y : Frac) : Prop := x.num * y.den = y.num * x.den

instance (x y : Frac) : Decidable (x.eqv y) :=
  inferInstanceAs (Decidable (x.num * y.den = y.num * x.den))

/-- The result of JavaScript `Number(string)`: NaN, ±Infinity, or a finite
value (modelled as an exact fraction). -/
inductive JsNum where
  | nan
  | posInf
  | negInf
  | num (q : Frac)

/-- JavaScript unary minus on numbers. -/
def jsNeg : JsNum → JsNum
  | .nan => .nan
  | .posInf => .negInf
  | .negInf => .posInf
  | .num q => .num q.neg

/-- JavaScript `>` on two numbers (IEEE semantics: any comparison with NaN
is false). -/
def jsGt : JsNum → JsNum → Bool
  | .nan, _ => false
  | _, .nan => false
  | .posInf, .posInf => false
  | .posInf, _ => true
  | .negInf, _ => false
  | .num _, .posInf => false
  | .num _, .negInf => true
  | .num p, .num q => decide (q.lt p)

/-- `x || 0` on a JavaScript number: the falsy values (`NaN`, `0`, `-0`)
become `0`; everything else is kept. -/
def jsOr0 : JsNum → JsNum
  | .nan => .num (Frac.ofInt 0)
  | .num q => if q.num = 0 then .num (Frac.ofInt 0) else .num q
  | x => x

/-- The `StrWhiteSpace` characters trimmed by JavaScript `Number(string)`:
ASCII whitespace, NBSP, the Unicode space separators, line terminators and
the BOM. -/
def isJsWhite (c : Char) : Bool :=
  c = '\t' ∨ c = '\n' ∨ c = '\x0b' ∨ c = '\x0c' ∨ c = '\r' ∨ c = ' ' ∨
  c = ' ' ∨ c = ' ' ∨
  (' ' ≤ c ∧ c ≤ ' ') ∨
  c = ' ' ∨ c = ' ' ∨ c = ' ' ∨ c = ' ' ∨
  c = '　' ∨ c = '﻿'

/-- Strip leading and trailing JavaScript whitespace. -/
def trimWhite (l : List Char) : List Char :=
  ((l.dropWhile isJsWhite).reverse.dropWhile isJsWhite).reverse

def isDecDigit (c : Char) : Bool := '0' ≤ c && c ≤ '9'

def decVal (c : Char) : ℕ := c.toNat - 48

def digitsToNat (ds : List Char) : ℕ :=
  ds.foldl (fun a c => a * 10 + decVal c) 0

/-- Parse the optional exponent tail of a `StrDecimalLiteral`; the whole
rest of the input must be consumed. -/
def parseExpPart : List Char → Option ℤ
  | [] => some 0
  | c :: r =>
    if c = 'e' ∨ c = 'E' then
      match r with
      | '+' :: ds =>
          if ds ≠ [] ∧ ds.all isDecDigit then some ((digitsToNat ds : ℤ)) else none
      | '-' :: ds =>
          if ds ≠ [] ∧ ds.all isDecDigit then some (-(digitsToNat ds : ℤ)) else none
      | ds =>
          if ds ≠ [] ∧ ds.all isDecDigit then some ((digitsToNat ds : ℤ)) else none
    else none

/-- Parse an unsigned `StrUnsignedDecimalLiteral` (without `Infinity`):
`D+ [. D*] [exp]`, `. D+ [exp]`.  Returns `none` for NaN.  The value is
`(intPart + frac / 10 ^ fracLen) · 10 ^ e`, kept exact. -/
def parseDecMantissa (l : List Char) : Option Frac :=
  let intPart := l.takeWhile isDecDigit
  let rest := l.dropWhile isDecDigit
  match rest with
  | '.' :: r2 =>
    let frac := r2.takeWhile isDecDigit
    let rest2 := r2.dropWhile isDecDigit
    if intPart = [] ∧ frac = [] then none
    else (parseExpPart rest2).map
      (fun e => (Frac.add (Frac.ofInt (digitsToNat intPart))
        ((Frac.ofInt (digitsToNat frac)).divPow10 frac.length)).mulPow10 e)
  | _ =>
    if intPart = [] then none
    else (parseExpPart rest).map
      (fun e => (Frac.ofInt (digitsToNat intPart)).mulPow10 e)

def hexVal (c : Char) : Option ℕ :=
  if isDecDigit c then some (decVal c)
  else if 'a' ≤ c ∧ c ≤ 'f' then some (c.toNat - 87)
  else if 'A' ≤ c ∧ c ≤ 'F' then some (c.toNat - 55)
  else none

def octVal (c : Char) : Option ℕ :=
  if '0' ≤ c ∧ c ≤ '7' then some (decVal c) else none

def binVal (c : Char) : Option ℕ :=
  if c = '0' ∨ c = '1' then some (decVal c) else none

/-- Parse a non-decimal integer literal body (after `0x`/`0o`/`0b`). -/
def parseRadixNum (base : ℕ) (dig : Char → Option ℕ) (ds : List Char) : JsNum :=
  if ds = [] then .nan
  else
    match ds.foldl
      (fun acc c => acc.bind (fun a => (dig c).map (fun d => a * base + d)))
      (some 0) with
    | some n => .num (Frac.ofInt n)
    | none => .nan

/-- An unsigned `StrNumericLiteral` that may follow a sign: `Infinity` or a
decimal literal. -/
def parseUnsignedNoRadix (l : List Char) : JsNum :=
  if l = "Infinity".data then .posInf
  else
    match parseDecMantissa l with
    | some q => .num q
    | none => .nan

/-- JavaScript `Number(string)` (ES `StringNumericLiteral` semantics, with
the value kept exact instead of rounded to a double). -/
def jsNumber (s : String) : JsNum :=
  match trimWhite s.data with
  | [] => .num (Frac.ofInt 0)
  | '+' :: r => parseUnsignedNoRadix r
  | '-' :: r => jsNeg (parseUnsignedNoRadix r)
  | '0' :: 'x' :: ds => parseRadixNum 16 hexVal ds
  | '0' :: 'X' :: ds => parseRadixNum 16 hexVal ds
  | '0' :: 'o' :: ds => parseRadixNum 8 octVal ds
  | '0' :: 'O' :: ds => parseRadixNum 8 octVal ds
  | '0' :: 'b' :: ds => parseRadixNum 2 binVal ds
  | '0' :: 'B' :: ds => parseRadixNum 2 binVal ds
  | l => parseUnsignedNoRadix l

/-! ## version-compare.ts -/

def isAsciiLetter (c : Char) : Bool :=
  ('a' ≤ c && c ≤ 'z') || ('A' ≤ c && c ≤ 'Z')

/-- JavaScript regex line terminators (`.` does not match them). -/
def isLineTerm (c : Char) : Bool :=
  c = '\n' ∨ c = '\r' ∨ c = ' ' ∨ c = ' '

def hasNoLineTerm (l : List Char) : Bool := l.all (fun c => !isLineTerm c)

/-- `v.replace(/[a-zA-Z].*$/, "")`: the regex matches at the first ASCII
letter whose whole tail is free of line terminators (`.` does not cross a
line terminator and `$`, without the `m` flag, is end of input); the match
runs to the end of the string, so the result is the prefix before that
letter.  If no letter matches, the string is unchanged. -/
def stripPreRelease : List Char → List Char
  | [] => []
  | c :: cs =>
    if isAsciiLetter c && hasNoLineTerm cs then []
    else c :: stripPreRelease cs

/-- `normalizeVersion` from `compareVersions`. -/
def normalizeVersion (v : String) : String := ⟨stripPreRelease v.data⟩

/-- JavaScript `String.prototype.split` with separator `"."`
(`"".split(".")` is `[""]`). -/
def consHead (c : Char) : List String → List String
  | [] => [⟨[c]⟩]
  | s :: ss => (⟨c :: s.data⟩ : String) :: ss

def splitDot : List Char → List String
  | [] => [""]
  | c :: cs => if c = '.' then "" :: splitDot cs else consHead c (splitDot cs)

/-- The `aParts`/`bParts` of `compareVersions`:
`normalizeVersion(v).split(".").map(Number)`. -/
def versionParts (v : String) : List JsNum :=
  (splitDot (normalizeVersion v).data).map jsNumber

/-- One iteration of the comparison loop: `aPart > bPart → 1`,
`aPart < bPart → -1`, otherwise continue. -/
def cmpStep (x y : JsNum) (rest : ℤ) : ℤ :=
  if jsGt x y then 1 else if jsGt y x then -1 else rest

/-- `aParts[i] || 0` when the list still has entries: the padded head. -/
def headPad : List JsNum → JsNum
  | [] => .num (Frac.ofInt 0)
  | v :: _ => jsOr0 v

/-- The indexed loop of `compareVersions` over `0 ≤ i < maxLength`, with
`aParts[i] || 0` (out-of-range and falsy entries read as `0`): position `i`
of the loop corresponds to the heads after dropping `i` entries from each
list, and the loop runs until both lists are exhausted. -/
def cmpParts : List JsNum → List JsNum → ℤ
  | [], b => b.foldr (fun v rest => cmpStep (.num (Frac.ofInt 0)) (jsOr0 v) rest) 0
  | u :: as, b => cmpStep (jsOr0 u) (headPad b) (cmpParts as b.tail)

/-- `compareVersions` from `src/client/src/app/utils/version-compare.ts`. -/
def compareVersions (a b : String) : ℤ :=
  let aN := normalizeVersion a
  let bN := normalizeVersion b
  let c := cmpParts (versionParts a) (versionParts b)
  if c ≠ 0 then c
  else if aN = bN then
    if a = aN ∧ b ≠ bN then 1
    else if a ≠ aN ∧ b = bN then -1
    else 0
  else 0

/-- JavaScript `Map` as an insertion-ordered association list:
`set` on an existing key updates the value in place. -/
def mapSet {T : Type} (m : List (String × T)) (k : String) (v : T) :
    List (String × T) :=
  if m.any (fun p => p.1 = k) then
    m.map (fun p => if p.1 = k then (k, v) else p)
  else m ++ [(k, v)]

def mapGet {T : Type} (m : List (String × T)) (k : String) : Option T :=
  (m.find? (fun p => p.1 = k)).map Prod.snd

/-- The loop body of `deduplicateByLatestVersion`:
`if (!existing || compareVersions(item.version, existing.version) > 0)`. -/
def dedupStep {T : Type} (name version : T → String)
    (m : List (String × T)) (item : T) : List (String × T) :=
  match mapGet m (name item) with
  | none => mapSet m (name item) item
  | some existing =>
    if compareVersions (version item) (version existing) > 0 then
      mapSet m (name item) item
    else m

/-- `deduplicateByLatestVersion` from
`src/client/src/app/utils/version-compare.ts`, generic over the item type
through its `name`/`version` projections; `Array.from(map.values())`
returns the values in key-insertion order. -/
def deduplicateByLatestVersion {T : Type} (name version : T → String)
    (items : List T) : List T :=
  (items.foldl (dedupStep name version) []).map Prod.snd

/-! ## Pulp request serialization (rest.ts) -/

/-- A query-parameter value: `string | number`. -/
inductive ParamVal where
  | str (s : String)
  | num (n : ℤ)
  deriving DecidableEq, Repr

/-- `HubFilter.value`: `string | number | { list: (string | number)[] }`. -/
inductive FilterValue where
  | str (s : String)
  | num (n : ℤ)
  | list (l : List ParamVal)
  deriving DecidableEq, Repr

structure HubPage where
  pageNumber : ℤ
  itemsPerPage : ℤ
  deriving DecidableEq, Repr

structure HubSort where
  field : String
  direction : String
  deriving DecidableEq, Repr

structure HubFilter where
  field : String
  operator : Option String
  value : FilterValue
  deriving DecidableEq, Repr

structure HubRequestParams where
  page : Option HubPage
  sort : Option HubSort
  filters : Option (List HubFilter)
  deriving DecidableEq, Repr

/-- `a || b` on `string | undefined`: `undefined` and `""` are falsy. -/
def jsOrStr (o : Option String) (d : String) : String :=
  match o with
  | none => d
  | some s => if s = "" then d else s

/-- The operator table inside `mapHubOperatorToPulpOperator`. -/
def pulpOperatorMapping (op : String) : Option String :=
  if op = "=" then some ""
  else if op = "!=" then some "__exclude"
  else if op = "~" then some "__icontains"
  else if op = "~~" then some "__contains"
  else if op = ">" then some "__gt"
  else if op = ">=" then some "__gte"
  else if op = "<" then some "__lt"
  else if op = "<=" then some "__lte"
  else none

/-- `mapHubOperatorToPulpOperator`: `mapping[operator] || ""`. -/
def mapHubOperatorToPulpOperator (op : String) : String :=
  jsOrStr (pulpOperatorMapping op) ""

/-- JavaScript number-to-string for the integers appearing in filter
values. -/
def paramValToString : ParamVal → String
  | .str s => s
  | .num n => toString n

/-- `filter.value.list.join(",")`. -/
def joinComma (l : List ParamVal) : String :=
  String.intercalate "," (l.map paramValToString)

/-- The value stored for one filter: multi-value lists are joined with
commas, plain values pass through. -/
def renderFilterValue : FilterValue → ParamVal
  | .str s => .str s
  | .num n => .num n
  | .list l => .str (joinComma l)

/-- `serializeRequestParamsForPulp` from the Pulp API module.  A JS object
is an insertion-ordered association list (`mapSet` is property
assignment). -/
def serializeRequestParamsForPulp (params : HubRequestParams)
    (extraParams : List (String × ParamVal)) : List (String × ParamVal) :=
  let p0 := extraParams.foldl (fun m kv => mapSet m kv.1 kv.2) []
  let p1 :=
    match params.page with
    | some pg =>
      mapSet (mapSet p0 "limit" (.num pg.itemsPerPage)) "offset"
        (.num ((pg.pageNumber - 1) * pg.itemsPerPage))
    | none => p0
  let p2 :=
    match params.sort with
    | some s =>
      mapSet p1 "ordering"
        (.str ((if s.direction = "desc" then "-" else "") ++ s.field))
    | none => p1
  match params.filters with
  | some fs =>
    fs.foldl (fun m f =>
      let op := mapHubOperatorToPulpOperator (jsOrStr f.operator "=")
      mapSet m (f.field ++ op) (renderFilterValue f.value)) p2
  | none => p2

/-! ## getPulpPaginatedResult -/

/-- One upstream `PulpPaginatedResponse` page (the fields the fetcher
reads). -/
structure PulpPage (T : Type) where
  results : List T
  count : ℤ
  next : Option String
  deriving DecidableEq, Repr

structure HubPaginatedResult (T : Type) where
  data : List T
  total : ℤ
  params : HubRequestParams
  deriving DecidableEq, Repr

/-- Truthiness of `data.next : string | null`. -/
def jsTruthyOptStr : Option String → Bool
  | none => false
  | some s => s ≠ ""

/-- `allResults.length < (pulpParams.limit as number)` with JavaScript `<`
semantics: comparison against `undefined` is false, a string limit is
coerced with `ToNumber`, NaN comparisons are false. -/
def jsLtLimit (n : ℕ) : Option ParamVal → Bool
  | none => false
  | some (.num k) => decide ((n : ℤ) < k)
  | some (.str s) =>
    match jsNumber s with
    | .nan => false
    | .posInf => true
    | .negInf => false
    | .num q => decide ((Frac.ofInt (n : ℤ)).lt q)

/-- The recursive `fetchAllPages` helper.  The upstream is modelled as the
chain of pages the walk can reach: the head answers the current GET and
the tail answers the `next` URLs in order.  A GET that has no page to
answer it (network failure, or a dangling `next`) is `none`; a cyclic
`next` chain, on which the JS recursion would not terminate, has no finite
chain and is out of scope. -/
def fetchAllPages {T : Type} (limit : Option ParamVal) :
    List (PulpPage T) → List T → Option (List T × ℤ)
  | [], _ => none
  | p :: rest, acc =>
    let allResults := acc ++ p.results
    if jsTruthyOptStr p.next && jsLtLimit allResults.length limit then
      fetchAllPages limit rest allResults
    else some (allResults, p.count)

/-- `getPulpPaginatedResult`: serialize the params, walk the pages, adapt
to `HubPaginatedResult`. -/
def getPulpPaginatedResult {T : Type} (params : HubRequestParams)
    (extraParams : List (String × ParamVal)) (chain : List (PulpPage T)) :
    Option (HubPaginatedResult T) :=
  let pulpParams := serializeRequestParamsForPulp params extraParams
  (fetchAllPages (mapGet pulpParams "limit") chain []).map
    (fun rc => ⟨rc.1, rc.2, params⟩)

/-! ## pulp-transformers.ts -/

/-- The fields of `PulpPythonPackageContent` read by the transformer and
the loaders.  Metadata fields are `Option String` (`none` models a missing
field on the wire; the code guards each read with `||` or `?.`). -/
structure PulpContent where
  pulp_href : String
  pulp_created : String
  name : String
  version : String
  summary : Option String
  description : Option String
  author : Option String
  maintainer : Option String
  license : Option String
  license_expression : Option String
  classifiers : Option (List String)
  filename : String
  python_version : String
  deriving DecidableEq, Repr

/-- `PackageVersion` view model. -/
structure PackageVersion where
  version : String
  releaseDate : String
  downloads : ℤ
  deriving DecidableEq, Repr

/-- The slice of `PulpPackageProvenance` read by the transformer:
`pep740 = provenance.provenance` with its publisher, upload time and
attestation levels, plus the stored digest and creation time. -/
structure ProvenanceAttestation where
  slsa_level : Option ℤ
  deriving DecidableEq, Repr

structure Pep740Provenance where
  publisherName : Option String
  publisherKind : Option String
  upload_time : Option String
  attestations : Option (List ProvenanceAttestation)
  deriving DecidableEq, Repr

structure PulpPackageProvenance where
  pulp_created : String
  sha256 : Option String
  provenance : Pep740Provenance
  deriving DecidableEq, Repr

/-- UI `Attestation` view model (the fields the transformer writes). -/
structure Attestation where
  type : String
  verifier : String
  timestamp : String
  status : String
  slsaLevel : Option ℤ
  digestSha256 : Option String
  issuer : Option String
  deriving DecidableEq, Repr

/-- UI `Package` view model. -/
structure Package where
  id : String
  name : String
  version : String
  description : String
  fullDescription : Option String
  downloads : ℤ
  updated : String
  author : String
  license : String
  tags : List String
  wheelName : String
  pythonVersion : String
  index : String
  versions : List PackageVersion
  currentVersionAttestations : List Attestation
  trustScore : ℤ
  slsaLevel : Option ℤ
  deriving DecidableEq, Repr

/-- JavaScript `Math.min` on two integers. -/
def jsMinInt (a b : ℤ) : ℤ := if a < b then a else b

/-- `computeTrustScore`: 0 without attestations, otherwise
`50 + min(n * 10, 50)`. -/
def computeTrustScore (provenances : Option (List PulpPackageProvenance)) : ℤ :=
  match provenances with
  | none => 0
  | some ps => if ps.length = 0 then 0 else 50 + jsMinInt ((ps.length : ℤ) * 10) 50

/-- `extractSlsaLevel`: the maximum `slsa_level` found across all
attestations, if any. -/
def extractSlsaLevel (provenances : Option (List PulpPackageProvenance)) :
    Option ℤ :=
  match provenances with
  | none => none
  | some ps =>
    if ps.length = 0 then none
    else
      let levels := (ps.flatMap (fun p => (p.provenance.attestations).getD [])).filterMap
        (fun a => a.slsa_level)
      match levels with
      | [] => none
      | l :: ls => some (ls.foldl max l)

/-- `transformToPackageVersion` (`formatDate` is a parameter: it lives in
`utils.ts`, outside the sources, and is date/locale dependent). -/
def transformToPackageVersion (fmtDate : String → Option String)
    (content : PulpContent) : PackageVersion :=
  ⟨content.version, jsOrStr (fmtDate content.pulp_created) "Unknown", 0⟩

/-- `transformToAttestation`. -/
def transformToAttestation (provenance : PulpPackageProvenance) : Attestation :=
  let pep740 := provenance.provenance
  { type := "PEP 740 Provenance"
    verifier := jsOrStr pep740.publisherName "Unknown"
    timestamp := jsOrStr pep740.upload_time provenance.pulp_created
    status := "verified"
    slsaLevel := ((pep740.attestations).getD []).head?.bind (fun a => a.slsa_level)
    digestSha256 := provenance.sha256
    issuer := pep740.publisherKind }

/-- `description?.substring(0, 200)` (UTF-16 code units abstracted to
characters). -/
def substring200 (s : String) : String := ⟨s.data.take 200⟩

/-- `transformPulpContentToPackage`. -/
def transformPulpContentToPackage (fmtDate : String → Option String)
    (content : PulpContent) (allVersions : Option (List PulpContent))
    (provenances : Option (List PulpPackageProvenance))
    (distributionName : Option String) : Package :=
  { id := content.pulp_href
    name := content.name
    version := content.version
    description :=
      jsOrStr content.summary
        (jsOrStr (content.description.map substring200) "")
    fullDescription := content.description
    downloads := 0
    updated := jsOrStr (fmtDate content.pulp_created) "Unknown"
    author := jsOrStr content.author (jsOrStr content.maintainer "Unknown")
    license := jsOrStr content.license
      (jsOrStr content.license_expression "Unknown")
    tags := (content.classifiers).getD []
    wheelName := content.filename
    pythonVersion := content.python_version
    index := jsOrStr distributionName "unknown"
    versions := ((allVersions.map
      (fun vs => vs.map (transformToPackageVersion fmtDate)))).getD []
    currentVersionAttestations :=
      ((provenances.map (fun ps => ps.map transformToAttestation))).getD []
    trustScore := computeTrustScore provenances
    slsaLevel := extractSlsaLevel provenances }

/-! ## search-context.tsx: progressive loader pipeline -/

/-- `SortOption`. -/
inductive SortOption where
  | relevance
  | date
  | downloads
  deriving DecidableEq, Repr

/-- ASCII `toLowerCase` (the non-ASCII case mappings of JavaScript
`toLowerCase` do not affect any claim). -/
def asciiLower (c : Char) : Char :=
  if 'A' ≤ c ∧ c ≤ 'Z' then Char.ofNat (c.toNat + 32) else c

def strLower (s : String) : String := ⟨s.data.map asciiLower⟩

def startsWithChars : List Char → List Char → Bool
  | _, [] => true
  | [], _ :: _ => false
  | h :: hs, n :: ns => h = n && startsWithChars hs ns

/-- `hay.includes(needle)`. -/
def infixChars : List Char → List Char → Bool
  | [], needle => needle.isEmpty
  | h :: hs, needle => startsWithChars (h :: hs) needle || infixChars hs needle

def strIncludes (hay needle : String) : Bool := infixChars hay.data needle.data

def strStartsWith (hay needle : String) : Bool :=
  startsWithChars hay.data needle.data

/-- JavaScript `Array.prototype.slice(start, end)` (negative indexes count
from the end). -/
def jsSlice {α : Type} (l : List α) (s e : ℤ) : List α :=
  let len : ℤ := l.length
  let s' := if s < 0 then max (len + s) 0 else min s len
  let e' := if e < 0 then max (len + e) 0 else min e len
  if s' < e' then (l.drop s'.toNat).take (e' - s').toNat else []

/-- JavaScript stable `Array.prototype.sort(cmp)`, as a merge sort on the
relation `cmp a b ≤ 0`. -/
def jsSortBy {α : Type} (le : α → α → Bool) (l : List α) : List α :=
  List.mergeSort l le

/-- The relevance score of `applySorting` (date parsing and the current
time are parameters: `new Date(...).getTime()` and `Date.now()` are
impure; milliseconds are integers, and the score's fractional recency term
is kept exact as a `Frac`). -/
def relevanceScore (dateMs : String → ℤ) (now : ℤ) (lowerQuery : String)
    (pkg : Package) : Frac :=
  let lowerName := strLower pkg.name
  let base : ℤ :=
    if lowerName = lowerQuery then 1000
    else if strStartsWith lowerName lowerQuery then 500
    else if strIncludes lowerName lowerQuery then 100
    else 0
  let lenBoost : ℤ := max 0 (50 - (lowerName.data.length : ℤ))
  let ageInDays : Frac :=
    (Frac.ofInt (now - dateMs pkg.updated)).divPosInt 86400000 (by omega)
  let recency : Frac :=
    let t := (Frac.ofInt 10).sub (ageInDays.divPosInt 365 (by omega))
    if (Frac.ofInt 0).lt t then t else Frac.ofInt 0
  (Frac.ofInt (base + lenBoost)).add recency

/-- `applySorting` (`locCmp` is `localeCompare`, locale dependent). -/
def applySorting (dateMs : String → ℤ) (now : ℤ)
    (locCmp : String → String → ℤ) (packages : List Package)
    (sortBy : SortOption) (searchQuery : String) : List Package :=
  match sortBy with
  | .date =>
    jsSortBy (fun a b => decide (dateMs b.updated - dateMs a.updated ≤ 0))
      packages
  | .downloads =>
    jsSortBy (fun a b =>
      if a.downloads ≠ b.downloads then decide (b.downloads - a.downloads ≤ 0)
      else decide (dateMs b.updated - dateMs a.updated ≤ 0)) packages
  | .relevance =>
    if searchQuery = "" then
      jsSortBy (fun a b => decide (locCmp a.name b.name ≤ 0)) packages
    else
      let lowerQuery := strLower searchQuery
      let scored := packages.map
        (fun pkg => (pkg, relevanceScore dateMs now lowerQuery pkg))
      (jsSortBy (fun a b =>
        if ¬ a.2.eqv b.2 then decide (¬ a.2.lt b.2)
        else decide (locCmp a.1.name b.1.name ≤ 0)) scored).map Prod.fst

/-- `transformedPackages` memo of the progressive loader: deduplicate the
accumulated raw content, then transform. -/
def transformedPackages (fmtDate : String → Option String)
    (accumulated : List PulpContent) : List Package :=
  if accumulated.length = 0 then []
  else
    (deduplicateByLatestVersion PulpContent.name PulpContent.version
      accumulated).map
      (fun content => transformPulpContentToPackage fmtDate content none none none)

/-- The client-side filters of the progressive loader (search query,
classification, license). -/
def filteredPackages (dateMs : String → ℤ) (now : ℤ)
    (locCmp : String → String → ℤ) (transformed : List Package)
    (searchQuery : String) (classification license : List String)
    (sortBy : SortOption) : List Package :=
  let pkgs0 := transformed
  let pkgs1 :=
    if searchQuery ≠ "" then
      let lowerQuery := strLower searchQuery
      pkgs0.filter (fun pkg =>
        strIncludes (strLower pkg.name) lowerQuery ||
        strIncludes (strLower pkg.description) lowerQuery)
    else pkgs0
  let pkgs2 :=
    if classification.length > 0 then
      pkgs1.filter (fun pkg =>
        classification.any (fun classifier =>
          pkg.tags.any (fun tag =>
            strIncludes (strLower tag) (strLower classifier))))
    else pkgs1
  let pkgs3 :=
    if license.length > 0 then
      pkgs2.filter (fun pkg =>
        license.any (fun lic =>
          strIncludes (strLower pkg.license) (strLower lic)))
    else pkgs2
  applySorting dateMs now locCmp pkgs3 sortBy searchQuery

/-- `currentPageItems` of the progressive loader:
`filteredPackages.slice((page-1)*perPage, (page-1)*perPage + perPage)`. -/
def currentPageItemsProgressive (dateMs : String → ℤ) (now : ℤ)
    (locCmp : String → String → ℤ) (fmtDate : String → Option String)
    (accumulated : List PulpContent) (searchQuery : String)
    (classification license : List String) (sortBy : SortOption)
    (page perPage : ℤ) : List Package :=
  let filtered := filteredPackages dateMs now locCmp
    (transformedPackages fmtDate accumulated) searchQuery classification
    license sortBy
  jsSlice filtered ((page - 1) * perPage) ((page - 1) * perPage + perPage)

/-! ## search-context.tsx: name-first loader (Query 2) -/

/-- The Query 2 deduplication: keep the first content item seen for each
name (a `Set` of seen names). -/
def dedupFirstByName (items : List PulpContent) : List PulpContent :=
  (items.foldl
    (fun (acc : List PulpContent × List String) item =>
      if acc.2.contains item.name then acc
      else (acc.1 ++ [item], acc.2 ++ [item.name]))
    ([], [])).1

/-- The list produced by Query 2's `queryFn`: first-seen deduplication,
then transformation. -/
def query2PageItems (fmtDate : String → Option String)
    (resultData : List PulpContent) : List Package :=
  (dedupFirstByName resultData).map
    (fun content => transformPulpContentToPackage fmtDate content none none none)

/-- `sortedPageItems` of the name-first loader: re-sort by date or
downloads, otherwise keep Query 1's order. -/
def sortedPageItems (dateMs : String → ℤ) (currentPageItems : List Package)
    (sortBy : SortOption) : List Package :=
  if currentPageItems.length = 0 then currentPageItems
  else
    match sortBy with
    | .date =>
      jsSortBy (fun a b => decide (dateMs b.updated - dateMs a.updated ≤ 0))
        currentPageItems
    | .downloads =>
      jsSortBy (fun a b => decide (b.downloads - a.downloads ≤ 0))
        currentPageItems
    | .relevance => currentPageItems

/-! ## search-context.tsx: progressive loader state -/

/-- The four pieces of React state of the progressive loader. -/
structure LoaderState where
  accumulatedPackages : List PulpContent
  pulpServerTotal : ℤ
  pulpPagesFetched : ℤ
  isFetchingMore : Bool
  deriving DecidableEq, Repr

/-- `PULP_PAGE_SIZE`. -/
def PULP_PAGE_SIZE : ℤ := 100

/-- `fetchNextPulpPage`, given the settled outcome of the inner
`getPulpPaginatedResult` promise.  The second component is the rejection
the `async` function re-throws (its `try` has no `catch`, only a `finally`
clearing the in-flight flag). -/
def fetchNextPulpPage (fetchResult : Except String (HubPaginatedResult PulpContent))
    (s : LoaderState) : LoaderState × Option String :=
  if s.isFetchingMore then (s, none)
  else if s.pulpPagesFetched * PULP_PAGE_SIZE ≥ s.pulpServerTotal then (s, none)
  else
    match fetchResult with
    | .ok r =>
      ({ accumulatedPackages := s.accumulatedPackages ++ r.data
         pulpServerTotal := r.total
         pulpPagesFetched := s.pulpPagesFetched + 1
         isFetchingMore := false }, none)
    | .error e => ({ s with isFetchingMore := false }, some e)

/-- The settled initial-page `useQuery`: the `queryFn` stores the first
page on success; on failure the query library catches the rejection, leaves
the loader state alone and exposes the error. -/
def initialQuerySettle (fetchResult : Except String (HubPaginatedResult PulpContent))
    (s : LoaderState) : LoaderState × Option String :=
  match fetchResult with
  | .ok r =>
    ({ accumulatedPackages := r.data
       pulpServerTotal := r.total
       pulpPagesFetched := 1
       isFetchingMore := s.isFetchingMore }, none)
  | .error e => (s, some e)

/-- What the provider can observe: the loader state plus the only error
flag in scope, the initial query's `error`. -/
structure CatalogObservable where
  state : LoaderState
  queryError : Option String
  deriving DecidableEq, Repr

/-- The pagination `useEffect` body around a failing `fetchNextPulpPage`:
it calls the async function and ignores the returned promise, so the
rejection reaches nobody and no error flag changes. -/
def fetchNextViaEffect (fetchResult : Except String (HubPaginatedResult PulpContent))
    (o : CatalogObservable) : CatalogObservable :=
  ⟨(fetchNextPulpPage fetchResult o.state).1, o.queryError⟩

/-! ## proxies.js -/

/-- The `proxyReq` hook of the `/api` proxy: the outgoing `Authorization`
header as a function of the parsed request cookies and the incoming
`Authorization` header (`cookie.parse` is the third-party `cookie`
package; its output record is the input here, first occurrence winning).
`if (bearerToken && !req.headers.authorization)` — both tests are
JavaScript truthiness, so an empty cookie value never sets the header and
an empty incoming header does not block it. -/
def outgoingAuthorization (cookies : List (String × String))
    (authorization : Option String) : Option String :=
  match cookies.find? (fun p => p.1 = "keycloak_cookie") with
  | some kv =>
    if kv.2 ≠ "" ∧ (authorization = none ∨ authorization = some "") then
      some ("Bearer " ++ kv.2)
    else authorization
  | none => authorization

/-- The invariant of the `deduplicateByLatestVersion` fold: keys are
distinct, each entry is keyed by its item's name and comes from the
processed prefix, every processed name has an entry, and each entry's
version is maximal among processed items of its name. -/
def DedupInv {T : Type} (name version : T → String) (processed : List T)
    (m : List (String × T)) : Prop :=
  (m.map Prod.fst).Nodup ∧
  (∀ p ∈ m, name p.2 = p.1 ∧ p.2 ∈ processed) ∧
  (∀ i ∈ processed, ∃ p ∈ m, p.1 = name i) ∧
  (∀ p ∈ m, ∀ i ∈ processed, name i = p.1 →
    0 ≤ compareVersions (version p.2) (version i))

/-- The numeric comparison as the spec describes it: strip, split,
convert, pad both part lists to a common length with zeros and compare
them positionally (first difference wins). -/
def lexCompare : List JsNum → List JsNum → ℤ
  | [], _ => 0
  | _ :: _, [] => 0
  | x :: xs, y :: ys =>
    if jsGt x y then 1 else if jsGt y x then -1 else lexCompare xs ys

/-- A part list padded with zeros to length `n` (missing and falsy
parts read as `0`). -/
def padParts (a : List JsNum) (n : ℕ) : List JsNum :=
  a.map jsOr0 ++ List.replicate (n - a.length) (.num (Frac.ofInt 0))

/-- Positional comparison of the two padded part lists. -/
def specCmpParts (a b : List JsNum) : ℤ :=
  lexCompare (padParts a (max a.length b.length))
    (padParts b (max a.length b.length))

/-- The tie-break of the claim: prefer the string without a stripped
pre-release suffix. -/
def preRelTie (a b : String) : ℤ :=
  if a = normalizeVersion a ∧ b ≠ normalizeVersion b then 1
  else if a ≠ normalizeVersion a ∧ b = normalizeVersion b then -1
  else 0

/-- `compareVersions` as claim C2 words it: the tie-break applies
whenever all numeric parts compare equal. -/
def claimedCompareVersions (a b : String) : ℤ :=
  if specCmpParts (versionParts a) (versionParts b) ≠ 0 then
    specCmpParts (versionParts a) (versionParts b)
  else preRelTie a b

/-- The amended description: the tie-break applies only when the two
normalized strings are equal; equal numeric parts with different
normalized strings compare as `0`. -/
def amendedCompareVersions (a b : String) : ℤ :=
  if specCmpParts (versionParts a) (versionParts b) ≠ 0 then
    specCmpParts (versionParts a) (versionParts b)
  else if normalizeVersion a = normalizeVersion b then preRelTie a b
  else 0

/-- The concatenation of the first `k+1` pages' results. -/
def resultsUpTo {T : Type} (chain : List (PulpPage T)) (k : ℕ) : List T :=
  ((chain.take (k + 1)).map PulpPage.results).flatten

/-! ## Theorems -/

theorem Frac.lt_asymm2 {x y : Frac} (h : x.lt y) : ¬ y.lt x := lt_asymm h

theorem Frac.lt_trans2 {x y z : Frac} (h1 : x.lt y) (h2 : y.lt z) : x.lt z := by
  unfold Frac.lt at h1 h2 ⊢
  nlinarith [x.dpos, y.dpos, z.dpos]

theorem Frac.eqv_of_not_lt {x y : Frac} (h1 : ¬ x.lt y) (h2 : ¬ y.lt x) :
    x.eqv y :=
  le_antisymm (not_lt.mp h2) (not_lt.mp h1)

theorem Frac.lt_congr_left {x y z : Frac} (h : x.eqv y) : x.lt z ↔ y.lt z := by
  unfold Frac.eqv at h
  unfold Frac.lt
  constructor <;> intro hlt <;> nlinarith [x.dpos, y.dpos, z.dpos]

theorem Frac.lt_congr_right {x y z : Frac} (h : x.eqv y) : z.lt x ↔ z.lt y := by
  unfold Frac.eqv at h
  unfold Frac.lt
  constructor <;> intro hlt <;> nlinarith [x.dpos, y.dpos, z.dpos]

theorem jsGt_asymm {x y : JsNum} (h : jsGt x y = true) : jsGt y x = false := by
  cases x <;> cases y <;> simp_all [jsGt]
  exact Frac.lt_asymm2 h

theorem jsGt_trans {x y z : JsNum} (h1 : jsGt x y = true)
    (h2 : jsGt y z = true) : jsGt x z = true := by
  cases x <;> cases y <;> cases z <;> simp_all [jsGt]
  exact Frac.lt_trans2 h2 h1

theorem jsGt_subst {x y : JsNum} (hx : x ≠ .nan) (hy : y ≠ .nan)
    (hxy : jsGt x y = false) (hyx : jsGt y x = false) :
    (∀ z, jsGt x z = jsGt y z) ∧ (∀ z, jsGt z x = jsGt z y) := by
  cases x <;> cases y <;> simp_all [jsGt]
  case num.num p q =>
    have heqv : q.eqv p := Frac.eqv_of_not_lt hxy hyx
    constructor
    · intro z
      cases z <;> simp [jsGt]
      case num r =>
        exact (Frac.lt_congr_right heqv).symm
    · intro z
      cases z <;> simp [jsGt]
      case num r =>
        exact (Frac.lt_congr_left heqv).symm

theorem jsOr0_ne_nan (v : JsNum) : jsOr0 v ≠ .nan := by
  cases v <;> simp [jsOr0]
  case num q => split <;> simp

theorem headPad_ne_nan (l : List JsNum) : headPad l ≠ .nan := by
  cases l with
  | nil => simp [headPad]
  | cons v vs => simpa [headPad] using jsOr0_ne_nan v

theorem cmpParts_eq (a b : List JsNum) (h : a ≠ [] ∨ b ≠ []) :
    cmpParts a b = cmpStep (headPad a) (headPad b) (cmpParts a.tail b.tail) := by
  match a, b with
  | [], [] => simp at h
  | [], v :: bs => rfl
  | u :: as, b => rfl

theorem cmpStep_neg (x y : JsNum) (r : ℤ) :
    cmpStep x y (-r) = -(cmpStep y x r) := by
  cases h1 : jsGt x y <;> cases h2 : jsGt y x <;> simp [cmpStep, h1, h2]
  have := jsGt_asymm h1
  rw [h2] at this
  exact absurd this (by simp)

theorem cmpStep_eq_zero {x y : JsNum} {r : ℤ} (h : cmpStep x y r = 0) :
    jsGt x y = false ∧ jsGt y x = false ∧ r = 0 := by
  cases h1 : jsGt x y <;> cases h2 : jsGt y x <;> simp_all [cmpStep]

theorem cmpStep_eq_one {x y : JsNum} {r : ℤ} (h : cmpStep x y r = 1) :
    jsGt x y = true ∨ (jsGt x y = false ∧ jsGt y x = false ∧ r = 1) := by
  cases h1 : jsGt x y <;> cases h2 : jsGt y x <;> simp_all [cmpStep]

theorem cmpStep_mem (x y : JsNum) (r : ℤ) :
    cmpStep x y r = -1 ∨ cmpStep x y r = 1 ∨ cmpStep x y r = r := by
  cases h1 : jsGt x y <;> cases h2 : jsGt y x <;> simp [cmpStep, h1, h2]

theorem cmpParts_neg : ∀ a b : List JsNum, cmpParts a b = -(cmpParts b a) := by
  intro a
  induction a with
  | nil =>
    intro b
    induction b with
    | nil => simp [cmpParts]
    | cons v bs ih =>
      rw [cmpParts_eq [] (v :: bs) (Or.inr (by simp)),
        cmpParts_eq (v :: bs) [] (Or.inl (by simp))]
      simp only [List.tail_cons, List.tail_nil]
      rw [ih, cmpStep_neg]
  | cons u as ih =>
    intro b
    rw [cmpParts_eq (u :: as) b (Or.inl (by simp)),
      cmpParts_eq b (u :: as) (Or.inr (by simp))]
    simp only [List.tail_cons]
    rw [ih b.tail, cmpStep_neg]

theorem cmpParts_self (a : List JsNum) : cmpParts a a = 0 := by
  have := cmpParts_neg a a
  omega

theorem cmpParts_mem : ∀ a b : List JsNum,
    cmpParts a b = -1 ∨ cmpParts a b = 0 ∨ cmpParts a b = 1 := by
  intro a
  induction a with
  | nil =>
    intro b
    induction b with
    | nil => simp [cmpParts]
    | cons v bs ih =>
      rw [cmpParts_eq [] (v :: bs) (Or.inr (by simp))]
      simp only [List.tail_cons, List.tail_nil]
      rcases cmpStep_mem (headPad []) (headPad (v :: bs)) (cmpParts [] bs) with
        h | h | h <;> rw [h] <;> tauto
  | cons u as ih =>
    intro b
    rw [cmpParts_eq (u :: as) b (Or.inl (by simp))]
    simp only [List.tail_cons]
    rcases cmpStep_mem (headPad (u :: as)) (headPad b) (cmpParts as b.tail) with
      h | h | h <;> rw [h]
    · tauto
    · tauto
    · exact ih b.tail

theorem cmpStep_congr {x y z : JsNum} {r1 r2 : ℤ}
    (h1 : jsGt x z = jsGt y z) (h2 : jsGt z x = jsGt z y) (hr : r1 = r2) :
    cmpStep x z r1 = cmpStep y z r2 := by
  unfold cmpStep
  rw [h1, h2, hr]

theorem cmpParts_nil_nil : cmpParts [] [] = 0 := rfl

theorem cmpParts_zero_subst_fuel : ∀ (n : ℕ) (a b : List JsNum),
    a.length + b.length ≤ n → cmpParts a b = 0 →
    ∀ c, cmpParts a c = cmpParts b c := by
  intro n
  induction n with
  | zero =>
    intro a b hlen h0 c
    have ha : a = [] := by cases a <;> simp_all
    have hb : b = [] := by cases b <;> simp_all
    subst ha; subst hb; rfl
  | succ n ih =>
    intro a b hlen h0 c
    by_cases hab : a = [] ∧ b = []
    · rcases hab with ⟨ha, hb⟩; subst ha; subst hb; rfl
    · have hor : a ≠ [] ∨ b ≠ [] := by tauto
      have h0' := h0
      rw [cmpParts_eq a b hor] at h0'
      obtain ⟨hxy, hyx, hrest⟩ := cmpStep_eq_zero h0'
      by_cases hac : a = [] ∧ c = []
      · rcases hac with ⟨ha, hc⟩
        subst ha; subst hc
        rw [cmpParts_nil_nil, cmpParts_neg b [], h0]
        rfl
      · by_cases hbc : b = [] ∧ c = []
        · rcases hbc with ⟨hb, hc⟩
          subst hb; subst hc
          rw [cmpParts_nil_nil, h0]
        · have hu1 : a ≠ [] ∨ c ≠ [] := by tauto
          have hu2 : b ≠ [] ∨ c ≠ [] := by tauto
          obtain ⟨hsub1, hsub2⟩ :=
            jsGt_subst (headPad_ne_nan a) (headPad_ne_nan b) hxy hyx
          have hmeas : a.tail.length + b.tail.length ≤ n := by
            have h1 : a.tail.length = a.length - 1 := by simp [List.length_tail]
            have h2 : b.tail.length = b.length - 1 := by simp [List.length_tail]
            have h3 : 1 ≤ a.length ∨ 1 ≤ b.length := by
              rcases hor with h | h
              · left; exact List.length_pos.mpr h
              · right; exact List.length_pos.mpr h
            omega
          have htail := ih a.tail b.tail hmeas hrest c.tail
          rw [cmpParts_eq a c hu1, cmpParts_eq b c hu2]
          exact cmpStep_congr (hsub1 (headPad c)) (hsub2 (headPad c)) htail

theorem cmpParts_one_trans_fuel : ∀ (n : ℕ) (a b c : List JsNum),
    a.length + b.length + c.length ≤ n → cmpParts a b = 1 →
    cmpParts b c = 1 → cmpParts a c = 1 := by
  intro n
  induction n with
  | zero =>
    intro a b c hlen h1 h2
    have ha : a = [] := by cases a <;> simp_all
    have hb : b = [] := by cases b <;> simp_all
    subst ha; subst hb
    rw [cmpParts_nil_nil] at h1
    omega
  | succ n ih =>
    intro a b c hlen h1 h2
    by_cases hab : a = [] ∧ b = []
    · rcases hab with ⟨ha, hb⟩; subst ha; subst hb
      rw [cmpParts_nil_nil] at h1; omega
    · by_cases hbc : b = [] ∧ c = []
      · rcases hbc with ⟨hb, hc⟩; subst hb; subst hc
        rw [cmpParts_nil_nil] at h2; omega
      · by_cases hac : a = [] ∧ c = []
        · rcases hac with ⟨ha, hc⟩; subst ha; subst hc
          rw [cmpParts_neg] at h2
          omega
        · have hor1 : a ≠ [] ∨ b ≠ [] := by tauto
          have hor2 : b ≠ [] ∨ c ≠ [] := by tauto
          have hor3 : a ≠ [] ∨ c ≠ [] := by tauto
          rw [cmpParts_eq a b hor1] at h1
          rw [cmpParts_eq b c hor2] at h2
          rw [cmpParts_eq a c hor3]
          have hmeas : a.tail.length + b.tail.length + c.tail.length ≤ n := by
            have e1 : a.tail.length = a.length - 1 := by simp [List.length_tail]
            have e2 : b.tail.length = b.length - 1 := by simp [List.length_tail]
            have e3 : c.tail.length = c.length - 1 := by simp [List.length_tail]
            have h3 : 1 ≤ a.length ∨ 1 ≤ b.length := by
              rcases hor1 with h | h
              · left; exact List.length_pos.mpr h
              · right; exact List.length_pos.mpr h
            omega
          rcases cmpStep_eq_one h1 with hg1 | ⟨he1, he1x, hr1⟩
          · rcases cmpStep_eq_one h2 with hg2 | ⟨he2, he2x, hr2⟩
            · -- gt, gt
              simp [cmpStep, jsGt_trans hg1 hg2]
            · -- gt, eqv: headPad b eqv headPad c
              obtain ⟨_, hs2⟩ := jsGt_subst (headPad_ne_nan b) (headPad_ne_nan c) he2 he2x
              have : jsGt (headPad a) (headPad c) = true := by
                rw [← hs2 (headPad a)]; exact hg1
              simp [cmpStep, this]
          · rcases cmpStep_eq_one h2 with hg2 | ⟨he2, he2x, hr2⟩
            · -- eqv, gt
              obtain ⟨hs1, _⟩ := jsGt_subst (headPad_ne_nan a) (headPad_ne_nan b) he1 he1x
              have : jsGt (headPad a) (headPad c) = true := by
                rw [hs1 (headPad c)]; exact hg2
              simp [cmpStep, this]
            · -- eqv, eqv: recurse
              obtain ⟨hs1, hs1x⟩ := jsGt_subst (headPad_ne_nan a) (headPad_ne_nan b) he1 he1x
              have hAC : jsGt (headPad a) (headPad c) = false := by
                rw [hs1 (headPad c)]; exact he2
              have hCA : jsGt (headPad c) (headPad a) = false := by
                rw [hs1x (headPad c)]; exact he2x
              have hrec := ih a.tail b.tail c.tail hmeas hr1 hr2
              simp [cmpStep, hAC, hCA, hrec]

theorem cmpParts_zero_subst {a b : List JsNum} (h : cmpParts a b = 0)
    (c : List JsNum) : cmpParts a c = cmpParts b c :=
  cmpParts_zero_subst_fuel (a.length + b.length) a b le_rfl h c

theorem cmpParts_one_trans {a b c : List JsNum} (h1 : cmpParts a b = 1)
    (h2 : cmpParts b c = 1) : cmpParts a c = 1 :=
  cmpParts_one_trans_fuel (a.length + b.length + c.length) a b c le_rfl h1 h2

theorem compareVersions_eq (a b : String) :
    compareVersions a b =
      if cmpParts (versionParts a) (versionParts b) ≠ 0 then
        cmpParts (versionParts a) (versionParts b)
      else if normalizeVersion a = normalizeVersion b then
        if a = normalizeVersion a ∧ b ≠ normalizeVersion b then 1
        else if a ≠ normalizeVersion a ∧ b = normalizeVersion b then -1
        else 0
      else 0 := rfl

theorem versionParts_congr {a b : String}
    (h : normalizeVersion a = normalizeVersion b) :
    versionParts a = versionParts b := by
  unfold versionParts
  rw [h]

theorem compareVersions_refl (a : String) : compareVersions a a = 0 := by
  rw [compareVersions_eq]
  rw [if_neg (by simp [cmpParts_self])]
  rw [if_pos rfl]
  have h1 : ¬(a = normalizeVersion a ∧ a ≠ normalizeVersion a) := by tauto
  have h2 : ¬(a ≠ normalizeVersion a ∧ a = normalizeVersion a) := by tauto
  rw [if_neg h1, if_neg h2]

theorem compareVersions_neg (a b : String) :
    compareVersions a b = -(compareVersions b a) := by
  have hz : ¬((0 : ℤ) ≠ 0) := by omega
  rw [compareVersions_eq, compareVersions_eq]
  by_cases h : cmpParts (versionParts a) (versionParts b) = 0
  · have h' : cmpParts (versionParts b) (versionParts a) = 0 := by
      rw [cmpParts_neg]; omega
    rw [h, h', if_neg hz, if_neg hz]
    by_cases hn : normalizeVersion a = normalizeVersion b
    · rw [if_pos hn, if_pos hn.symm]
      split_ifs <;> first | omega | tauto
    · rw [if_neg hn, if_neg (fun hh => hn hh.symm)]
      omega
  · have h' : cmpParts (versionParts b) (versionParts a) ≠ 0 := by
      rw [cmpParts_neg]; omega
    rw [if_pos h, if_pos h', cmpParts_neg (versionParts a) (versionParts b)]

theorem compareVersions_mem (a b : String) :
    compareVersions a b = -1 ∨ compareVersions a b = 0 ∨ compareVersions a b = 1 := by
  rw [compareVersions_eq]
  rcases cmpParts_mem (versionParts a) (versionParts b) with h | h | h <;>
    rw [h] <;> split_ifs <;> omega

theorem compareVersions_trans_nonneg {a b c : String}
    (h1 : 0 < compareVersions a b) (h2 : 0 ≤ compareVersions b c) :
    0 ≤ compareVersions a c := by
  by_cases hab : cmpParts (versionParts a) (versionParts b) = 0
  · -- numeric tie between a and b: the positive result comes from the
    -- prerelease rule, so the normalized strings are equal
    rw [compareVersions_eq, hab, if_neg (by omega)] at h1
    by_cases hNab : normalizeVersion a = normalizeVersion b
    case neg =>
      rw [if_neg hNab] at h1
      omega
    case pos =>
      rw [if_pos hNab] at h1
      have hflags : a = normalizeVersion a ∧ b ≠ normalizeVersion b := by
        by_cases hf : a = normalizeVersion a ∧ b ≠ normalizeVersion b
        · exact hf
        · rw [if_neg hf] at h1
          split_ifs at h1 <;> omega
      have hPab : versionParts a = versionParts b := versionParts_congr hNab
      by_cases hbc : cmpParts (versionParts b) (versionParts c) = 0
      · have hPac : cmpParts (versionParts a) (versionParts c) = 0 := by
          rw [hPab]; exact hbc
        rw [compareVersions_eq, hbc, if_neg (by omega)] at h2
        rw [compareVersions_eq, hPac, if_neg (by omega)]
        by_cases hNbc : normalizeVersion b = normalizeVersion c
        · have hNac : normalizeVersion a = normalizeVersion c := hNab.trans hNbc
          rw [if_pos hNbc] at h2
          rw [if_pos hNac]
          have hcPre : c ≠ normalizeVersion c := by
            intro hc
            rw [if_neg (by tauto), if_pos ⟨hflags.2, hc⟩] at h2
            omega
          rw [if_pos ⟨hflags.1, hcPre⟩]
          omega
        · have hNac : ¬ normalizeVersion a = normalizeVersion c := by
            rw [hNab]; exact hNbc
          rw [if_neg hNac]
      · rw [compareVersions_eq, if_pos hbc] at h2
        have hbc1 : cmpParts (versionParts b) (versionParts c) = 1 := by
          rcases cmpParts_mem (versionParts b) (versionParts c) with h | h | h <;>
            omega
        have hPac : cmpParts (versionParts a) (versionParts c) = 1 := by
          rw [hPab]; exact hbc1
        rw [compareVersions_eq, if_pos (by rw [hPac]; omega)]
        omega
  · rw [compareVersions_eq, if_pos hab] at h1
    have hab1 : cmpParts (versionParts a) (versionParts b) = 1 := by
      rcases cmpParts_mem (versionParts a) (versionParts b) with h | h | h <;> omega
    by_cases hbc : cmpParts (versionParts b) (versionParts c) = 0
    · have hcb : cmpParts (versionParts c) (versionParts b) = 0 := by
        rw [cmpParts_neg]; omega
      have hsub := cmpParts_zero_subst hcb (versionParts a)
      have hPac : cmpParts (versionParts a) (versionParts c) = 1 := by
        rw [cmpParts_neg, hsub, ← cmpParts_neg]; exact hab1
      rw [compareVersions_eq, if_pos (by rw [hPac]; omega)]
      omega
    · rw [compareVersions_eq, if_pos hbc] at h2
      have hbc1 : cmpParts (versionParts b) (versionParts c) = 1 := by
        rcases cmpParts_mem (versionParts b) (versionParts c) with h | h | h <;> omega
      have hPac := cmpParts_one_trans hab1 hbc1
      rw [compareVersions_eq, if_pos (by rw [hPac]; omega)]
      omega

theorem compareVersions_nonneg_of_not_pos {x y : String}
    (h : ¬ 0 < compareVersions x y) : 0 ≤ compareVersions y x := by
  rw [compareVersions_neg] at h
  omega

theorem mapGet_none_iff {T : Type} {m : List (String × T)} {k : String} :
    mapGet m k = none ↔ ∀ p ∈ m, p.1 ≠ k := by
  unfold mapGet
  rw [Option.map_eq_none', List.find?_eq_none]
  constructor
  · intro h p hp
    simpa using h p hp
  · intro h p hp
    simpa using h p hp

theorem mapGet_some_mem {T : Type} {m : List (String × T)} {k : String}
    {v : T} (h : mapGet m k = some v) : (k, v) ∈ m := by
  unfold mapGet at h
  rw [Option.map_eq_some'] at h
  obtain ⟨p, hp, hv⟩ := h
  have hmem := List.mem_of_find?_eq_some hp
  have hkey : p.1 = k := by simpa using List.find?_some hp
  have : p = (k, v) := by
    cases p
    simp_all
  rw [← this]
  exact hmem

theorem mapSet_absent {T : Type} {m : List (String × T)} {k : String}
    {v : T} (h : ∀ p ∈ m, p.1 ≠ k) : mapSet m k v = m ++ [(k, v)] := by
  unfold mapSet
  have hany : m.any (fun p => p.1 = k) = false := by
    rw [List.any_eq_false]
    intro p hp
    simpa using h p hp
  rw [if_neg (by simp [hany])]

theorem mapSet_present_keys {T : Type} {m : List (String × T)} {k : String}
    {v : T} (h : m.any (fun p => p.1 = k) = true) :
    (mapSet m k v).map Prod.fst = m.map Prod.fst := by
  unfold mapSet
  rw [if_pos (by simp_all)]
  rw [List.map_map]
  apply List.map_congr_left
  intro p _
  by_cases hp : p.1 = k <;> simp [hp]

theorem mem_mapSet_present {T : Type} {m : List (String × T)} {k : String}
    {v : T} (h : m.any (fun p => p.1 = k) = true) {q : String × T}
    (hq : q ∈ mapSet m k v) : (q ∈ m ∧ q.1 ≠ k) ∨ q = (k, v) := by
  unfold mapSet at hq
  rw [if_pos (by simp_all)] at hq
  rw [List.mem_map] at hq
  obtain ⟨p, hp, hpq⟩ := hq
  by_cases hk : p.1 = k
  · right
    rw [if_pos hk] at hpq
    exact hpq.symm
  · left
    rw [if_neg hk] at hpq
    rw [← hpq]
    exact ⟨hp, hk⟩

theorem mapSet_mem_self {T : Type} (m : List (String × T)) (k : String)
    (v : T) : (k, v) ∈ mapSet m k v := by
  unfold mapSet
  by_cases h : m.any (fun p => p.1 = k) = true
  · rw [if_pos (by simp_all)]
    rw [List.any_eq_true] at h
    obtain ⟨p, hp, hpk⟩ := h
    rw [List.mem_map]
    exact ⟨p, hp, by simp_all⟩
  · rw [if_neg (by simp_all)]
    simp

theorem pairs_eq_of_keys_nodup {T : Type} {m : List (String × T)}
    (hnd : (m.map Prod.fst).Nodup) {p q : String × T} (hp : p ∈ m)
    (hq : q ∈ m) (hk : p.1 = q.1) : p = q := by
  induction m with
  | nil => simp at hp
  | cons x xs ih =>
    rw [List.map_cons, List.nodup_cons] at hnd
    rcases List.mem_cons.mp hp with hpx | hpxs <;>
      rcases List.mem_cons.mp hq with hqx | hqxs
    · rw [hpx, hqx]
    · exfalso
      apply hnd.1
      rw [List.mem_map]
      exact ⟨q, hqxs, by rw [← hk, hpx]⟩
    · exfalso
      apply hnd.1
      rw [List.mem_map]
      exact ⟨p, hpxs, by rw [hk, hqx]⟩
    · exact ih hnd.2 hpxs hqxs

theorem mapGet_some_any {T : Type} {m : List (String × T)} {k : String}
    {v : T} (h : mapGet m k = some v) : m.any (fun p => p.1 = k) = true := by
  rw [List.any_eq_true]
  exact ⟨(k, v), mapGet_some_mem h, by simp⟩

theorem dedupStep_inv {T : Type} {name version : T → String}
    {processed : List T} {m : List (String × T)} (item : T)
    (hinv : DedupInv name version processed m) :
    DedupInv name version (processed ++ [item])
      (dedupStep name version m item) := by
  obtain ⟨hnd, hent, hcov, hmax⟩ := hinv
  unfold dedupStep
  cases hget : mapGet m (name item) with
  | none =>
    have habs : ∀ p ∈ m, p.1 ≠ name item := mapGet_none_iff.mp hget
    rw [mapSet_absent habs]
    refine ⟨?_, ?_, ?_, ?_⟩
    · rw [List.map_append, List.nodup_append]
      refine ⟨hnd, by simp, ?_⟩
      intro x hx
      rw [List.mem_map] at hx
      obtain ⟨p, hp, hpx⟩ := hx
      simp only [List.map_cons, List.map_nil, List.mem_cons]
      intro hx2
      rcases hx2 with h1 | h1
      · exact habs p hp (hpx.trans h1)
      · simp at h1
    · intro p hp
      rcases List.mem_append.mp hp with h1 | h1
      · obtain ⟨he1, he2⟩ := hent p h1
        exact ⟨he1, List.mem_append_left _ he2⟩
      · simp at h1
        rw [h1]
        exact ⟨rfl, by simp⟩
    · intro i hi
      rcases List.mem_append.mp hi with h1 | h1
      · obtain ⟨p, hp, hpk⟩ := hcov i h1
        exact ⟨p, List.mem_append_left _ hp, hpk⟩
      · simp at h1
        refine ⟨(name item, item), by simp, by rw [h1]⟩
    · intro p hp i hi hni
      rcases List.mem_append.mp hp with h1 | h1
      · rcases List.mem_append.mp hi with h2 | h2
        · exact hmax p h1 i h2 hni
        · simp at h2
          exfalso
          exact habs p h1 (by rw [← hni, h2])
      · simp at h1
        rcases List.mem_append.mp hi with h2 | h2
        · exfalso
          obtain ⟨q, hq, hqk⟩ := hcov i h2
          apply habs q hq
          rw [hqk, hni, h1]
        · simp at h2
          rw [h1, h2]
          simp [compareVersions_refl]
  | some existing =>
    have hany := mapGet_some_any hget
    have hmem := mapGet_some_mem hget
    show DedupInv name version (processed ++ [item])
      (if compareVersions (version item) (version existing) > 0 then
        mapSet m (name item) item else m)
    by_cases hgt : compareVersions (version item) (version existing) > 0
    · rw [if_pos hgt]
      refine ⟨?_, ?_, ?_, ?_⟩
      · rw [mapSet_present_keys hany]
        exact hnd
      · intro p hp
        rcases mem_mapSet_present hany hp with ⟨h1, _⟩ | h1
        · obtain ⟨he1, he2⟩ := hent p h1
          exact ⟨he1, List.mem_append_left _ he2⟩
        · rw [h1]
          exact ⟨rfl, by simp⟩
      · intro i hi
        rcases List.mem_append.mp hi with h1 | h1
        · obtain ⟨p, hp, hpk⟩ := hcov i h1
          by_cases hk : p.1 = name item
          · exact ⟨(name item, item), mapSet_mem_self m _ item, by rw [hpk] at hk; rw [hk]⟩
          · refine ⟨p, ?_, hpk⟩
            unfold mapSet
            rw [if_pos (by simp_all)]
            rw [List.mem_map]
            exact ⟨p, hp, by rw [if_neg hk]⟩
        · simp at h1
          exact ⟨(name item, item), mapSet_mem_self m _ item, by rw [h1]⟩
      · intro p hp i hi hni
        rcases mem_mapSet_present hany hp with ⟨h1, hk⟩ | h1
        · rcases List.mem_append.mp hi with h2 | h2
          · exact hmax p h1 i h2 hni
          · simp at h2
            exfalso
            apply hk
            rw [← hni, h2]
        · rcases List.mem_append.mp hi with h2 | h2
          · rw [h1]
            have hname : name i = (name item, existing).1 := by rw [hni, h1]
            have hex := hmax (name item, existing) hmem i h2 hname
            exact compareVersions_trans_nonneg hgt hex
          · simp at h2
            rw [h1, h2]
            simp [compareVersions_refl]
    · rw [if_neg hgt]
      refine ⟨hnd, ?_, ?_, ?_⟩
      · intro p hp
        obtain ⟨he1, he2⟩ := hent p hp
        exact ⟨he1, List.mem_append_left _ he2⟩
      · intro i hi
        rcases List.mem_append.mp hi with h1 | h1
        · exact hcov i h1
        · simp at h1
          refine ⟨(name item, existing), hmem, by rw [h1]⟩
      · intro p hp i hi hni
        rcases List.mem_append.mp hi with h2 | h2
        · exact hmax p hp i h2 hni
        · simp at h2
          have hpk : p.1 = name item := by rw [← hni, h2]
          have hpe : p = (name item, existing) :=
            pairs_eq_of_keys_nodup hnd hp hmem (by simpa using hpk)
          rw [hpe, h2]
          exact compareVersions_nonneg_of_not_pos hgt

theorem foldl_dedup_inv {T : Type} (name version : T → String) :
    ∀ (items : List T) (m : List (String × T)) (processed : List T),
    DedupInv name version processed m →
    DedupInv name version (processed ++ items)
      (items.foldl (dedupStep name version) m) := by
  intro items
  induction items with
  | nil => intro m processed h; simpa using h
  | cons i rest ih =>
    intro m processed h
    have h1 := dedupStep_inv i h
    have h2 := ih (dedupStep name version m i) (processed ++ [i]) h1
    rw [List.foldl_cons]
    rw [show processed ++ i :: rest = (processed ++ [i]) ++ rest by simp]
    exact h2

theorem dedup_inv {T : Type} (name version : T → String) (items : List T) :
    DedupInv name version items (items.foldl (dedupStep name version) []) := by
  have h0 : DedupInv name version [] [] := by
    refine ⟨by simp, by simp, by simp, by simp⟩
  simpa using foldl_dedup_inv name version items [] [] h0

theorem dedup_names_nodup {T : Type} (name version : T → String)
    (items : List T) :
    ((deduplicateByLatestVersion name version items).map name).Nodup := by
  obtain ⟨hnd, hent, hcov, hmax⟩ := dedup_inv name version items
  unfold deduplicateByLatestVersion
  rw [List.map_map]
  have : (items.foldl (dedupStep name version) []).map (name ∘ Prod.snd) =
      (items.foldl (dedupStep name version) []).map Prod.fst := by
    apply List.map_congr_left
    intro p hp
    exact (hent p hp).1
  rw [this]
  exact hnd

theorem dedup_mem {T : Type} (name version : T → String) (items : List T) :
    ∀ o ∈ deduplicateByLatestVersion name version items, o ∈ items := by
  obtain ⟨hnd, hent, hcov, hmax⟩ := dedup_inv name version items
  intro o ho
  unfold deduplicateByLatestVersion at ho
  rw [List.mem_map] at ho
  obtain ⟨p, hp, hpo⟩ := ho
  rw [← hpo]
  exact (hent p hp).2

theorem dedup_covers {T : Type} (name version : T → String) (items : List T) :
    ∀ i ∈ items, name i ∈ (deduplicateByLatestVersion name version items).map name := by
  obtain ⟨hnd, hent, hcov, hmax⟩ := dedup_inv name version items
  intro i hi
  obtain ⟨p, hp, hpk⟩ := hcov i hi
  unfold deduplicateByLatestVersion
  rw [List.map_map, List.mem_map]
  refine ⟨p, hp, ?_⟩
  have := (hent p hp).1
  simp only [Function.comp_apply]
  rw [this, hpk]

theorem dedup_max {T : Type} (name version : T → String) (items : List T) :
    ∀ o ∈ deduplicateByLatestVersion name version items, ∀ i ∈ items,
      name i = name o → 0 ≤ compareVersions (version o) (version i) := by
  obtain ⟨hnd, hent, hcov, hmax⟩ := dedup_inv name version items
  intro o ho i hi hname
  unfold deduplicateByLatestVersion at ho
  rw [List.mem_map] at ho
  obtain ⟨p, hp, hpo⟩ := ho
  rw [← hpo]
  apply hmax p hp i hi
  rw [hname, ← hpo]
  exact (hent p hp).1

theorem mapGet_append_none {T : Type} {m : List (String × T)} {k : String}
    (h : mapGet m k = none) (l : List (String × T)) :
    mapGet (m ++ l) k = mapGet l k := by
  unfold mapGet at h ⊢
  rw [List.find?_append]
  rw [Option.map_eq_none'] at h
  rw [h]
  rfl

theorem mapGet_dedupStep_other {T : Type} {name version : T → String}
    {m : List (String × T)} {item : T} {k : String} (hk : name item ≠ k) :
    mapGet (dedupStep name version m item) k = mapGet m k := by
  have hmap : ∀ (mm : List (String × T)),
      mapGet (mm.map (fun p => if p.1 = name item then (name item, item) else p)) k =
        mapGet mm k := by
    intro mm
    induction mm with
    | nil => rfl
    | cons p rest ih =>
      by_cases hp : p.1 = name item
      · unfold mapGet at ih ⊢
        rw [List.map_cons, if_pos hp, List.find?_cons, List.find?_cons]
        have h1 : (decide ((name item, item).1 = k)) = false := by
          simp [hk]
        have h2 : (decide (p.1 = k)) = false := by
          simp [hp, hk]
        rw [h1, h2]
        exact ih
      · unfold mapGet at ih ⊢
        rw [List.map_cons, if_neg hp, List.find?_cons, List.find?_cons]
        cases hd : decide (p.1 = k)
        · exact ih
        · rfl
  have hset : mapGet (mapSet m (name item) item) k = mapGet m k := by
    unfold mapSet
    by_cases hany : m.any (fun p => p.1 = name item) = true
    · rw [if_pos (by simp_all)]
      exact hmap m
    · rw [if_neg (by simp_all)]
      by_cases hg : mapGet m k = none
      · rw [mapGet_append_none hg, hg]
        simp [mapGet, hk]
      · obtain ⟨w, hw⟩ := Option.ne_none_iff_exists'.mp hg
        unfold mapGet at hw ⊢
        rw [Option.map_eq_some'] at hw
        obtain ⟨p, hp, hpw⟩ := hw
        rw [List.find?_append, hp]
        simp [hpw]
  unfold dedupStep
  cases hget : mapGet m (name item) with
  | none => exact hset
  | some existing =>
    show mapGet (if compareVersions (version item) (version existing) > 0 then
      mapSet m (name item) item else m) k = mapGet m k
    by_cases hgt : compareVersions (version item) (version existing) > 0
    · rw [if_pos hgt]
      exact hset
    · rw [if_neg hgt]

theorem mapGet_dedupStep_new {T : Type} {name version : T → String}
    {m : List (String × T)} {item : T}
    (h : mapGet m (name item) = none) :
    mapGet (dedupStep name version m item) (name item) = some item := by
  unfold dedupStep
  rw [h]
  rw [mapSet_absent (mapGet_none_iff.mp h)]
  rw [mapGet_append_none h]
  unfold mapGet
  rw [List.find?_cons]
  simp

theorem mapGet_dedupStep_keep {T : Type} {name version : T → String}
    {m : List (String × T)} {item existing : T}
    (h : mapGet m (name item) = some existing)
    (hle : ¬ compareVersions (version item) (version existing) > 0) :
    dedupStep name version m item = m := by
  unfold dedupStep
  rw [h]
  show (if compareVersions (version item) (version existing) > 0 then
    mapSet m (name item) item else m) = m
  rw [if_neg hle]

theorem foldl_dedup_keep {T : Type} (name version : T → String) (n : String) :
    ∀ (items : List T) (m : List (String × T)) (e : T),
    mapGet m n = some e →
    (∀ i ∈ items, name i = n → ¬ 0 < compareVersions (version i) (version e)) →
    mapGet (items.foldl (dedupStep name version) m) n = some e := by
  intro items
  induction items with
  | nil => intro m e h _; simpa using h
  | cons i rest ih =>
    intro m e h hall
    rw [List.foldl_cons]
    by_cases hn : name i = n
    · have hkeep : dedupStep name version m i = m :=
        mapGet_dedupStep_keep (by rw [hn]; exact h) (hall i (by simp) hn)
      rw [hkeep]
      exact ih m e h (fun j hj => hall j (by simp [hj]))
    · have hother : mapGet (dedupStep name version m i) n = mapGet m n :=
        mapGet_dedupStep_other hn
      exact ih _ e (by rw [hother]; exact h)
        (fun j hj => hall j (by simp [hj]))

theorem foldl_dedup_first {T : Type} (name version : T → String) (n : String) :
    ∀ (items : List T) (m : List (String × T)),
    mapGet m n = none →
    (∀ i ∈ items, ∀ j ∈ items, name i = n → name j = n →
      compareVersions (version i) (version j) = 0) →
    mapGet (items.foldl (dedupStep name version) m) n =
      items.find? (fun i => name i = n) := by
  intro items
  induction items with
  | nil => intro m h _; simpa using h
  | cons i rest ih =>
    intro m h hall
    rw [List.foldl_cons, List.find?_cons]
    by_cases hn : name i = n
    · rw [show (decide (name i = n)) = true by simp [hn]]
      apply foldl_dedup_keep
      · rw [← hn]
        apply mapGet_dedupStep_new
        rw [hn]
        exact h
      · intro j hj hjn
        have := hall j (by simp [hj]) i (by simp) hjn hn
        omega
    · rw [show (decide (name i = n)) = false by simp [hn]]
      apply ih
      · rw [mapGet_dedupStep_other hn]
        exact h
      · intro x hx y hy
        exact hall x (by simp [hx]) y (by simp [hy])

theorem mapGet_of_mem_nodup {T : Type} {m : List (String × T)}
    (hnd : (m.map Prod.fst).Nodup) {p : String × T} (hp : p ∈ m) :
    mapGet m p.1 = some p.2 := by
  induction m with
  | nil => simp at hp
  | cons q rest ih =>
    rw [List.map_cons, List.nodup_cons] at hnd
    unfold mapGet
    rw [List.find?_cons]
    rcases List.mem_cons.mp hp with h1 | h1
    · rw [h1]
      simp
    · have hne : q.1 ≠ p.1 := by
        intro he
        apply hnd.1
        rw [List.mem_map]
        exact ⟨p, h1, he.symm⟩
      rw [show (decide (q.1 = p.1)) = false by simp [hne]]
      exact ih hnd.2 h1

theorem dedup_first_of_all_tie {T : Type} (name version : T → String)
    (items : List T) (n : String)
    (hall : ∀ i ∈ items, ∀ j ∈ items, name i = n → name j = n →
      compareVersions (version i) (version j) = 0) :
    ∀ o ∈ deduplicateByLatestVersion name version items, name o = n →
      items.find? (fun i => name i = n) = some o := by
  intro o ho hon
  obtain ⟨hnd, hent, hcov, hmax⟩ := dedup_inv name version items
  unfold deduplicateByLatestVersion at ho
  rw [List.mem_map] at ho
  obtain ⟨p, hp, hpo⟩ := ho
  have hkey : p.1 = n := by
    rw [← hon, ← hpo]
    exact ((hent p hp).1).symm
  have hm : mapGet (items.foldl (dedupStep name version) []) n = some o := by
    rw [← hkey, ← hpo]
    exact mapGet_of_mem_nodup hnd hp
  rw [← foldl_dedup_first name version n items [] (by rfl) hall]
  exact hm

theorem lexCompare_cons (x y : JsNum) (xs ys : List JsNum) :
    lexCompare (x :: xs) (y :: ys) = cmpStep x y (lexCompare xs ys) := rfl

theorem padParts_cons (u : JsNum) (as : List JsNum) (n : ℕ) :
    padParts (u :: as) (n + 1) = jsOr0 u :: padParts as n := by
  simp [padParts]

theorem padParts_self (a : List JsNum) : padParts a a.length = a.map jsOr0 := by
  simp [padParts]

theorem cmpParts_eq_spec : ∀ a b : List JsNum, cmpParts a b = specCmpParts a b := by
  intro a
  induction a with
  | nil =>
    intro b
    show cmpParts [] b = specCmpParts [] b
    unfold specCmpParts
    simp only [List.length_nil, Nat.max_eq_right (Nat.zero_le _)]
    rw [padParts_self]
    induction b with
    | nil => rfl
    | cons v bs ih =>
      show cmpStep (.num (Frac.ofInt 0)) (jsOr0 v)
          (cmpParts [] bs) = _
      rw [show padParts [] (v :: bs).length =
          JsNum.num (Frac.ofInt 0) :: padParts [] bs.length by
        simp [padParts, List.replicate_succ]]
      rw [List.map_cons, lexCompare_cons]
      rw [ih]
  | cons u as ih =>
    intro b
    cases b with
    | nil =>
      show cmpStep (jsOr0 u) (headPad []) (cmpParts as []) = _
      unfold specCmpParts
      simp only [List.length_cons, List.length_nil,
        Nat.max_eq_left (Nat.zero_le _)]
      rw [padParts_cons]
      rw [show padParts [] (as.length + 1) =
          JsNum.num (Frac.ofInt 0) :: padParts [] as.length by
        simp [padParts, List.replicate_succ]]
      rw [lexCompare_cons]
      rw [ih []]
      unfold specCmpParts
      simp only [List.length_nil, Nat.max_eq_left (Nat.zero_le _)]
      rfl
    | cons v bs =>
      show cmpStep (jsOr0 u) (jsOr0 v) (cmpParts as bs) = _
      unfold specCmpParts
      simp only [List.length_cons, Nat.succ_max_succ]
      rw [padParts_cons, padParts_cons, lexCompare_cons]
      rw [ih bs]
      rfl

theorem resultsUpTo_cons {T : Type} (p : PulpPage T) (rest : List (PulpPage T))
    (j : ℕ) : resultsUpTo (p :: rest) (j + 1) = p.results ++ resultsUpTo rest j := by
  simp [resultsUpTo]

theorem resultsUpTo_zero {T : Type} (p : PulpPage T) (rest : List (PulpPage T)) :
    resultsUpTo (p :: rest) 0 = p.results := by
  simp [resultsUpTo]

theorem fetchAllPages_cons {T : Type} (limit : Option ParamVal)
    (p : PulpPage T) (rest : List (PulpPage T)) (acc : List T) :
    fetchAllPages limit (p :: rest) acc =
      if jsTruthyOptStr p.next && jsLtLimit (acc ++ p.results).length limit then
        fetchAllPages limit rest (acc ++ p.results)
      else some (acc ++ p.results, p.count) := rfl

theorem fetchAllPages_spec {T : Type} (limit : Option ParamVal) :
    ∀ (chain : List (PulpPage T)) (acc : List T), chain ≠ [] →
    (∀ p, chain.getLast? = some p → jsTruthyOptStr p.next = false) →
    ∃ (k : ℕ) (pk : PulpPage T), chain.get? k = some pk ∧
      fetchAllPages limit chain acc =
        some (acc ++ resultsUpTo chain k, pk.count) ∧
      (∀ (j : ℕ) (pj : PulpPage T), j < k → chain.get? j = some pj →
        jsTruthyOptStr pj.next = true ∧
        jsLtLimit (acc ++ resultsUpTo chain j).length limit = true) ∧
      ¬(jsTruthyOptStr pk.next = true ∧
        jsLtLimit (acc ++ resultsUpTo chain k).length limit = true) := by
  intro chain
  induction chain with
  | nil => intro acc h; exact absurd rfl h
  | cons p rest ih =>
    intro acc _ hlast
    by_cases hcond :
        (jsTruthyOptStr p.next && jsLtLimit (acc ++ p.results).length limit) = true
    · rw [Bool.and_eq_true] at hcond
      have hrest : rest ≠ [] := by
        intro hr
        subst hr
        have := hlast p (by simp)
        rw [this] at hcond
        simp at hcond
      have hlast2 : ∀ q, rest.getLast? = some q → jsTruthyOptStr q.next = false := by
        intro q hq
        apply hlast
        obtain ⟨r, rs, hrr⟩ := List.exists_cons_of_ne_nil hrest
        rw [hrr] at hq ⊢
        rw [List.getLast?_cons_cons]
        exact hq
      obtain ⟨k, pk, hget, heq, hsteps, hstop⟩ := ih (acc ++ p.results) hrest hlast2
      refine ⟨k + 1, pk, by simpa using hget, ?_, ?_, ?_⟩
      · rw [fetchAllPages_cons, if_pos (by rw [Bool.and_eq_true]; exact hcond)]
        rw [heq, resultsUpTo_cons]
        rw [List.append_assoc]
      · intro j pj hj hgetj
        cases j with
        | zero =>
          simp at hgetj
          subst hgetj
          rw [resultsUpTo_zero]
          exact ⟨hcond.1, hcond.2⟩
        | succ j' =>
          have hj' : j' < k := by omega
          have hgetj' : rest.get? j' = some pj := by simpa using hgetj
          have := hsteps j' pj hj' hgetj'
          rw [resultsUpTo_cons, ← List.append_assoc]
          exact this
      · rw [resultsUpTo_cons, ← List.append_assoc]
        exact hstop
    · refine ⟨0, p, by simp, ?_, by omega, ?_⟩
      · rw [fetchAllPages_cons, if_neg (by simp_all)]
        rw [resultsUpTo_zero]
      · rw [resultsUpTo_zero]
        intro hcon
        apply hcond
        rw [Bool.and_eq_true]
        exact hcon

theorem mapGet_mapSet_other {T : Type} {m : List (String × T)} {k k2 : String}
    {v : T} (h : k ≠ k2) : mapGet (mapSet m k v) k2 = mapGet m k2 := by
  have hmap : ∀ (mm : List (String × T)),
      mapGet (mm.map (fun p => if p.1 = k then (k, v) else p)) k2 = mapGet mm k2 := by
    intro mm
    induction mm with
    | nil => rfl
    | cons p rest ih =>
      by_cases hp : p.1 = k
      · unfold mapGet at ih ⊢
        rw [List.map_cons, if_pos hp, List.find?_cons, List.find?_cons]
        have h1 : (decide ((k, v).1 = k2)) = false := by simp [h]
        have h2 : (decide (p.1 = k2)) = false := by simp [hp, h]
        rw [h1, h2]
        exact ih
      · unfold mapGet at ih ⊢
        rw [List.map_cons, if_neg hp, List.find?_cons, List.find?_cons]
        cases hd : decide (p.1 = k2)
        · exact ih
        · rfl
  unfold mapSet
  by_cases hany : m.any (fun p => p.1 = k) = true
  · rw [if_pos (by simp_all)]
    exact hmap m
  · rw [if_neg (by simp_all)]
    by_cases hg : mapGet m k2 = none
    · rw [mapGet_append_none hg, hg]
      simp [mapGet, h]
    · obtain ⟨w, hw⟩ := Option.ne_none_iff_exists'.mp hg
      unfold mapGet at hw ⊢
      rw [Option.map_eq_some'] at hw
      obtain ⟨p, hp, hpw⟩ := hw
      rw [List.find?_append, hp]
      simp [hpw]

theorem mapGet_foldl_set_none {T : Type} (k2 : String) :
    ∀ (l : List (String × T)) (m : List (String × T)),
    mapGet m k2 = none → (∀ kv ∈ l, kv.1 ≠ k2) →
    mapGet (l.foldl (fun mm kv => mapSet mm kv.1 kv.2) m) k2 = none := by
  intro l
  induction l with
  | nil => intro m h _; simpa using h
  | cons kv rest ih =>
    intro m h hall
    rw [List.foldl_cons]
    apply ih
    · rw [mapGet_mapSet_other (hall kv (by simp))]
      exact h
    · intro x hx
      exact hall x (by simp [hx])

theorem serialize_limit_none (params : HubRequestParams)
    (extraParams : List (String × ParamVal)) (hpage : params.page = none)
    (hextra : ∀ kv ∈ extraParams, kv.1 ≠ "limit")
    (hfil : ∀ f ∈ params.filters.getD [],
      f.field ++ mapHubOperatorToPulpOperator (jsOrStr f.operator "=") ≠ "limit") :
    mapGet (serializeRequestParamsForPulp params extraParams) "limit" = none := by
  unfold serializeRequestParamsForPulp
  rw [hpage]
  have h0 : mapGet (extraParams.foldl (fun m kv => mapSet m kv.1 kv.2) [])
      "limit" = none :=
    mapGet_foldl_set_none "limit" extraParams [] rfl hextra
  have h1 : mapGet (match params.sort with
      | some s => mapSet (extraParams.foldl (fun m kv => mapSet m kv.1 kv.2) [])
          "ordering" (.str ((if s.direction = "desc" then "-" else "") ++ s.field))
      | none => extraParams.foldl (fun m kv => mapSet m kv.1 kv.2) [])
      "limit" = none := by
    cases params.sort with
    | none => exact h0
    | some s =>
      rw [mapGet_mapSet_other (by simp)]
      exact h0
  cases hf : params.filters with
  | none => exact h1
  | some fs =>
    rw [hf] at hfil
    simp only [Option.getD_some] at hfil
    have hgen : ∀ (gs : List HubFilter) (m : List (String × ParamVal)),
        mapGet m "limit" = none →
        (∀ f ∈ gs, f.field ++ mapHubOperatorToPulpOperator
          (jsOrStr f.operator "=") ≠ "limit") →
        mapGet (gs.foldl (fun m f =>
          mapSet m (f.field ++ mapHubOperatorToPulpOperator (jsOrStr f.operator "="))
            (renderFilterValue f.value)) m) "limit" = none := by
      intro gs
      induction gs with
      | nil => intro m h _; simpa using h
      | cons f rest ih =>
        intro m h hall
        rw [List.foldl_cons]
        apply ih
        · rw [mapGet_mapSet_other (hall f (by simp))]
          exact h
        · intro x hx
          exact hall x (by simp [hx])
    exact hgen fs _ h1 hfil

theorem transform_name (fmtDate : String → Option String) (c : PulpContent)
    (av : Option (List PulpContent)) (pv : Option (List PulpPackageProvenance))
    (dn : Option String) :
    (transformPulpContentToPackage fmtDate c av pv dn).name = c.name := rfl

theorem map_name_transform (fmtDate : String → Option String)
    (l : List PulpContent) :
    (l.map (fun c => transformPulpContentToPackage fmtDate c none none none)).map
      Package.name = l.map PulpContent.name := by
  rw [List.map_map]
  rfl

theorem dedupFirstByName_aux :
    ∀ (items : List PulpContent) (acc : List PulpContent × List String),
    acc.2 = acc.1.map PulpContent.name → (acc.1.map PulpContent.name).Nodup →
    (items.foldl
      (fun (acc : List PulpContent × List String) item =>
        if acc.2.contains item.name then acc
        else (acc.1 ++ [item], acc.2 ++ [item.name])) acc).2 =
      (items.foldl
      (fun (acc : List PulpContent × List String) item =>
        if acc.2.contains item.name then acc
        else (acc.1 ++ [item], acc.2 ++ [item.name])) acc).1.map
        PulpContent.name ∧
    ((items.foldl
      (fun (acc : List PulpContent × List String) item =>
        if acc.2.contains item.name then acc
        else (acc.1 ++ [item], acc.2 ++ [item.name])) acc).1.map
        PulpContent.name).Nodup := by
  intro items
  induction items with
  | nil => intro acc h1 h2; exact ⟨h1, h2⟩
  | cons i rest ih =>
    intro acc h1 h2
    rw [List.foldl_cons]
    by_cases hc : acc.2.contains i.name = true
    · rw [if_pos hc]
      exact ih acc h1 h2
    · rw [if_neg hc]
      apply ih
      · simp [h1]
      · rw [List.map_append]
        rw [List.nodup_append]
        refine ⟨h2, by simp, ?_⟩
        intro x hx
        simp only [List.map_cons, List.map_nil, List.mem_cons,
          List.not_mem_nil, or_false]
        intro hxi
        apply hc
        rw [h1]
        rw [hxi] at hx
        have : i.name ∈ acc.1.map PulpContent.name := hx
        simpa [List.contains_eq_any_beq, List.any_eq_true] using this

theorem dedupFirstByName_nodup (items : List PulpContent) :
    ((dedupFirstByName items).map PulpContent.name).Nodup := by
  unfold dedupFirstByName
  exact (dedupFirstByName_aux items ([], []) (by simp) (by simp)).2

theorem applySorting_perm (dateMs : String → ℤ) (now : ℤ)
    (locCmp : String → String → ℤ) (packages : List Package)
    (sortBy : SortOption) (searchQuery : String) :
    (applySorting dateMs now locCmp packages sortBy searchQuery).Perm packages := by
  cases sortBy with
  | date => exact List.mergeSort_perm packages _
  | downloads => exact List.mergeSort_perm packages _
  | relevance =>
    unfold applySorting
    by_cases hq : searchQuery = ""
    · rw [if_pos hq]
      exact List.mergeSort_perm packages _
    · rw [if_neg hq]
      have h1 := List.mergeSort_perm
        (packages.map (fun pkg =>
          (pkg, relevanceScore dateMs now (strLower searchQuery) pkg)))
        (fun a b =>
          if ¬ a.2.eqv b.2 then decide (¬ a.2.lt b.2)
          else decide (locCmp a.1.name b.1.name ≤ 0))
      have h2 := h1.map Prod.fst
      simp only [jsSortBy]
      refine h2.trans ?_
      rw [List.map_map]
      have : (Prod.fst ∘ fun pkg =>
          (pkg, relevanceScore dateMs now (strLower searchQuery) pkg)) = id := rfl
      rw [this, List.map_id]

theorem sortedPageItems_perm (dateMs : String → ℤ) (items : List Package)
    (sortBy : SortOption) :
    (sortedPageItems dateMs items sortBy).Perm items := by
  unfold sortedPageItems
  by_cases h : items.length = 0
  · rw [if_pos h]
  · rw [if_neg h]
    cases sortBy with
    | date => exact List.mergeSort_perm items _
    | downloads => exact List.mergeSort_perm items _
    | relevance => exact List.Perm.refl items

theorem jsSlice_sublist {α : Type} (l : List α) (s e : ℤ) :
    (jsSlice l s e).Sublist l := by
  unfold jsSlice
  dsimp only
  split_ifs <;>
    first
    | exact ((List.take_sublist _ _).trans (List.drop_sublist _ _))
    | exact List.nil_sublist l

theorem transformedPackages_names_nodup (fmtDate : String → Option String)
    (accumulated : List PulpContent) :
    ((transformedPackages fmtDate accumulated).map Package.name).Nodup := by
  unfold transformedPackages
  split_ifs
  · simp
  · rw [map_name_transform]
    exact dedup_names_nodup PulpContent.name PulpContent.version accumulated

theorem filteredPackages_names_nodup (dateMs : String → ℤ) (now : ℤ)
    (locCmp : String → String → ℤ) (transformed : List Package)
    (searchQuery : String) (classification license : List String)
    (sortBy : SortOption)
    (h : (transformed.map Package.name).Nodup) :
    ((filteredPackages dateMs now locCmp transformed searchQuery classification
      license sortBy).map Package.name).Nodup := by
  have step : ∀ (l : List Package) (p : Package → Bool),
      (l.map Package.name).Nodup → ((l.filter p).map Package.name).Nodup :=
    fun l p hl => (((List.filter_sublist l).map Package.name).nodup hl)
  have condStep : ∀ (c : Prop) (inst : Decidable c) (l : List Package)
      (p : Package → Bool), (l.map Package.name).Nodup →
      (((if c then l.filter p else l)).map Package.name).Nodup := by
    intro c inst l p hl
    split_ifs
    · exact step l p hl
    · exact hl
  have hstep : ∀ (l : List Package), (l.map Package.name).Nodup →
      ((applySorting dateMs now locCmp l sortBy searchQuery).map
        Package.name).Nodup := by
    intro l hl
    exact (((applySorting_perm dateMs now locCmp l sortBy
      searchQuery).map Package.name).symm).nodup hl
  unfold filteredPackages
  dsimp only
  apply hstep
  apply condStep
  apply condStep
  apply condStep
  exact h

/-- **C1** For every list of `{name, version}` items,
`deduplicateByLatestVersion` returns exactly one item per distinct name
occurring in the list — the returned names are pairwise distinct, every
returned item occurs in the input, and every input name is represented —
and for each name the kept item's version compares `≥` (under
`compareVersions`) against every version of that name in the input. -/
theorem claim_C1_dedup_correct {T : Type} (name version : T → String)
    (items : List T) :
    ((deduplicateByLatestVersion name version items).map name).Nodup ∧
    (∀ o ∈ deduplicateByLatestVersion name version items, o ∈ items) ∧
    (∀ i ∈ items, name i ∈ (deduplicateByLatestVersion name version items).map name) ∧
    (∀ o ∈ deduplicateByLatestVersion name version items, ∀ i ∈ items,
      name i = name o → 0 ≤ compareVersions (version o) (version i)) :=
  ⟨dedup_names_nodup name version items, dedup_mem name version items,
    dedup_covers name version items, dedup_max name version items⟩

/-- **C2 counterexample** On `a = "1.0"`, `b = "1.0.0rc1"` all numeric
parts compare equal and only `b` had a pre-release suffix stripped, so the
claim's description demands a positive result; `compareVersions` returns
`0` because the tie-break additionally requires the normalized strings to
be equal (`"1.0" ≠ "1.0.0"`). -/
theorem claim_C2_counterexample :
    compareVersions "1.0" "1.0.0rc1" = 0 ∧
    claimedCompareVersions "1.0" "1.0.0rc1" = 1 := by decide

/-- **C2 amended** `compareVersions` strips the suffix, compares the
numeric parts positionally with missing/falsy parts as `0`, and breaks
numeric ties by preferring the non-prerelease string only when the two
normalized strings are equal; when the numeric parts are equal but the
normalized strings differ it returns `0`. -/
theorem claim_C2_amended (a b : String) :
    compareVersions a b = amendedCompareVersions a b := by
  rw [compareVersions_eq]
  unfold amendedCompareVersions preRelTie
  simp only [cmpParts_eq_spec]

/-- **C3 counterexample** Two items with the same name carrying versions
that compare equal and maximal: the claim says the one occurring last in
input order is kept, but `deduplicateByLatestVersion` keeps the first
occurrence (an item replaces the incumbent only when strictly greater). -/
theorem claim_C3_counterexample :
    deduplicateByLatestVersion (fun t : String × String × ℕ => t.1)
      (fun t => t.2.1) [("p", "1.0", 0), ("p", "1.0", 1)] =
      [("p", "1.0", 0)] ∧
    (("p", "1.0", 0) : String × String × ℕ) ≠ ("p", "1.0", 1) := by decide

/-- **C3 amended** An item replaces the currently kept item of its name
only when its version compares strictly greater, so when all items of a
name carry versions that pairwise compare equal under `compareVersions`,
the kept item is the first occurrence in input order (first duplicate
wins, not last); in particular the result is insensitive to any
permutation that fixes the first such occurrence. -/
theorem claim_C3_amended {T : Type} (name version : T → String)
    (items : List T) (n : String)
    (hall : ∀ i ∈ items, ∀ j ∈ items, name i = n → name j = n →
      compareVersions (version i) (version j) = 0) :
    ∀ o ∈ deduplicateByLatestVersion name version items, name o = n →
      items.find? (fun i => name i = n) = some o :=
  dedup_first_of_all_tie name version items n hall

/-- **C3 amended, witness** The amended claim at a concrete input: two
items of name `"p"` with equal versions; the first is kept and is the
first match. -/
theorem claim_C3_amended_witness :
    (∀ i ∈ ([("p", "1.0", 0), ("p", "1.0", 1)] : List (String × String × ℕ)),
      ∀ j ∈ ([("p", "1.0", 0), ("p", "1.0", 1)] : List (String × String × ℕ)),
      i.1 = "p" → j.1 = "p" → compareVersions i.2.1 j.2.1 = 0) ∧
    (∀ o ∈ deduplicateByLatestVersion (fun t : String × String × ℕ => t.1)
      (fun t => t.2.1) [("p", "1.0", 0), ("p", "1.0", 1)], o.1 = "p" →
      ([("p", "1.0", 0), ("p", "1.0", 1)] : List (String × String × ℕ)).find?
        (fun i => i.1 = "p") = some o) :=
  ⟨by decide,
    claim_C3_amended (fun t : String × String × ℕ => t.1) (fun t => t.2.1)
      [("p", "1.0", 0), ("p", "1.0", 1)] "p" (by decide)⟩

/-- **C8** `compareVersions("1.9.0", "1.10.0")` is negative (numeric, not
lexicographic, comparison) and `compareVersions("1.0.0", "1.0.0a1")` is
positive (stable preferred over prerelease). -/
theorem claim_C8_examples :
    compareVersions "1.9.0" "1.10.0" = -1 ∧
    compareVersions "1.9.0" "1.10.0" < 0 ∧
    compareVersions "1.0.0" "1.0.0a1" = 1 ∧
    0 < compareVersions "1.0.0" "1.0.0a1" := by decide

/-- **C6** `serializeRequestParamsForPulp` maps the page to
`limit = itemsPerPage` and `offset = (pageNumber - 1) * itemsPerPage`
(`{pageNumber: 2, itemsPerPage: 50}` gives `{limit: 50, offset: 50}`),
maps the sort to `ordering` with a `-` prefix exactly when descending,
maps each filter to the key `field ++ suffix` per the operator table, and
joins multi-value filter lists with commas. -/
theorem claim_C6_serializer :
    (∀ pn ipp : ℤ,
      serializeRequestParamsForPulp ⟨some ⟨pn, ipp⟩, none, none⟩ [] =
        [("limit", .num ipp), ("offset", .num ((pn - 1) * ipp))]) ∧
    serializeRequestParamsForPulp ⟨some ⟨2, 50⟩, none, none⟩ [] =
      [("limit", .num 50), ("offset", .num 50)] ∧
    (∀ f d : String,
      serializeRequestParamsForPulp ⟨none, some ⟨f, d⟩, none⟩ [] =
        [("ordering", .str ((if d = "desc" then "-" else "") ++ f))]) ∧
    (mapHubOperatorToPulpOperator "=" = "" ∧
      mapHubOperatorToPulpOperator "!=" = "__exclude" ∧
      mapHubOperatorToPulpOperator "~" = "__icontains" ∧
      mapHubOperatorToPulpOperator "~~" = "__contains" ∧
      mapHubOperatorToPulpOperator ">" = "__gt" ∧
      mapHubOperatorToPulpOperator ">=" = "__gte" ∧
      mapHubOperatorToPulpOperator "<" = "__lt" ∧
      mapHubOperatorToPulpOperator "<=" = "__lte") ∧
    (∀ (fld op : String) (v : FilterValue),
      serializeRequestParamsForPulp ⟨none, none, some [⟨fld, some op, v⟩]⟩ [] =
        [(fld ++ mapHubOperatorToPulpOperator op, renderFilterValue v)]) ∧
    (∀ vs : List ParamVal,
      renderFilterValue (.list vs) =
        .str (String.intercalate "," (vs.map paramValToString))) := by
  have hjs : ∀ op : String,
      mapHubOperatorToPulpOperator (jsOrStr (some op) "=") =
        mapHubOperatorToPulpOperator op := by
    intro op
    show mapHubOperatorToPulpOperator (if op = "" then "=" else op) =
      mapHubOperatorToPulpOperator op
    by_cases h : op = ""
    · rw [if_pos h, h]
      rfl
    · rw [if_neg h]
  refine ⟨fun pn ipp => rfl, rfl, fun f d => rfl,
    ⟨rfl, rfl, rfl, rfl, rfl, rfl, rfl, rfl⟩, fun fld op v => ?_, fun vs => rfl⟩
  show [(fld ++ mapHubOperatorToPulpOperator (jsOrStr (some op) "="),
    renderFilterValue v)] = _
  rw [hjs]

/-- **C5** `getPulpPaginatedResult` issues one GET (page 0 is always
fetched); while the response's `next` is truthy and the accumulated count
is below the translated `limit` it follows `next` and concatenates,
stopping at the first page where that fails; it returns the concatenated
`data`, the upstream-reported `count` of the last fetched page as `total`,
and echoes `params`. -/
theorem claim_C5_pagination {T : Type} (params : HubRequestParams)
    (extraParams : List (String × ParamVal)) (chain : List (PulpPage T))
    (hne : chain ≠ [])
    (hterm : (chain.getLast?.all fun p => !jsTruthyOptStr p.next) = true) :
    ∃ (k : ℕ) (pk : PulpPage T), chain.get? k = some pk ∧
      getPulpPaginatedResult params extraParams chain =
        some ⟨resultsUpTo chain k, pk.count, params⟩ ∧
      (∀ (j : ℕ) (pj : PulpPage T), j < k → chain.get? j = some pj →
        jsTruthyOptStr pj.next = true ∧
        jsLtLimit (resultsUpTo chain j).length
          (mapGet (serializeRequestParamsForPulp params extraParams)
            "limit") = true) ∧
      ¬(jsTruthyOptStr pk.next = true ∧
        jsLtLimit (resultsUpTo chain k).length
          (mapGet (serializeRequestParamsForPulp params extraParams)
            "limit") = true) := by
  have hterm2 : ∀ p, chain.getLast? = some p → jsTruthyOptStr p.next = false := by
    intro p hp
    rw [hp] at hterm
    simpa using hterm
  obtain ⟨k, pk, h1, h2, h3, h4⟩ := fetchAllPages_spec
    (mapGet (serializeRequestParamsForPulp params extraParams) "limit")
    chain [] hne hterm2
  refine ⟨k, pk, h1, ?_, ?_, ?_⟩
  · unfold getPulpPaginatedResult
    dsimp only
    rw [h2]
    simp
  · intro j pj hj hg
    simpa using h3 j pj hj hg
  · simpa using h4

/-- **C5, witness** A two-page chain with requested page size 3: the first
GET returns 2 results with a truthy `next`, so the walk follows it; the
second page has `next: null`, so it stops.  The result concatenates both
pages and reports the upstream total 250, which exceeds `data.length`. -/
theorem claim_C5_pagination_witness :
    (([⟨[1, 2], 250, some "u2"⟩, ⟨[3, 4], 250, none⟩] : List (PulpPage ℕ)) ≠ [] ∧
      ((([⟨[1, 2], 250, some "u2"⟩, ⟨[3, 4], 250, none⟩] :
        List (PulpPage ℕ)).getLast?.all fun p => !jsTruthyOptStr p.next) = true)) ∧
    (∃ (k : ℕ) (pk : PulpPage ℕ),
      ([⟨[1, 2], 250, some "u2"⟩, ⟨[3, 4], 250, none⟩] :
        List (PulpPage ℕ)).get? k = some pk ∧
      getPulpPaginatedResult ⟨some ⟨1, 3⟩, none, none⟩ []
        [⟨[1, 2], 250, some "u2"⟩, ⟨[3, 4], 250, none⟩] =
        some ⟨resultsUpTo [⟨[1, 2], 250, some "u2"⟩, ⟨[3, 4], 250, none⟩] k,
          pk.count, ⟨some ⟨1, 3⟩, none, none⟩⟩ ∧
      (∀ (j : ℕ) (pj : PulpPage ℕ), j < k →
        ([⟨[1, 2], 250, some "u2"⟩, ⟨[3, 4], 250, none⟩] :
          List (PulpPage ℕ)).get? j = some pj →
        jsTruthyOptStr pj.next = true ∧
        jsLtLimit (resultsUpTo [⟨[1, 2], 250, some "u2"⟩, ⟨[3, 4], 250, none⟩]
          j).length (mapGet (serializeRequestParamsForPulp
            ⟨some ⟨1, 3⟩, none, none⟩ []) "limit") = true) ∧
      ¬(jsTruthyOptStr pk.next = true ∧
        jsLtLimit (resultsUpTo [⟨[1, 2], 250, some "u2"⟩, ⟨[3, 4], 250, none⟩]
          k).length (mapGet (serializeRequestParamsForPulp
            ⟨some ⟨1, 3⟩, none, none⟩ []) "limit") = true)) ∧
    getPulpPaginatedResult (⟨some ⟨1, 3⟩, none, none⟩ : HubRequestParams) []
      ([⟨[1, 2], 250, some "u2"⟩, ⟨[3, 4], 250, none⟩] : List (PulpPage ℕ)) =
      some ⟨[1, 2, 3, 4], 250, ⟨some ⟨1, 3⟩, none, none⟩⟩ :=
  ⟨⟨by decide, by decide⟩,
    claim_C5_pagination ⟨some ⟨1, 3⟩, none, none⟩ []
      [⟨[1, 2], 250, some "u2"⟩, ⟨[3, 4], 250, none⟩] (by decide) (by decide),
    by decide⟩

/-- **C10 counterexample** With `params.page` absent and no `limit` in
`extraParams`, a filter on field `"limit"` with operator `"="` still
writes a `limit` query key, so the walk follows `next` and a second GET
happens: the result concatenates two pages instead of returning the first
response as-is. -/
theorem claim_C10_counterexample :
    getPulpPaginatedResult
      (⟨none, none, some [⟨"limit", some "=", .num 1000⟩]⟩ : HubRequestParams)
      [] ([⟨["a"], 2, some "next-url"⟩, ⟨["b"], 2, none⟩] : List (PulpPage String)) =
      some ⟨["a", "b"], 2, ⟨none, none, some [⟨"limit", some "=", .num 1000⟩]⟩⟩ ∧
    some (⟨["a", "b"], 2, ⟨none, none, some [⟨"limit", some "=", .num 1000⟩]⟩⟩ :
        HubPaginatedResult String) ≠
      (([⟨["a"], 2, some "next-url"⟩, ⟨["b"], 2, none⟩] :
        List (PulpPage String)).head?.map
        (fun p => ⟨p.results, p.count,
          ⟨none, none, some [⟨"limit", some "=", .num 1000⟩]⟩⟩)) := by decide

/-- **C10 amended** When `params.page` is absent, `extraParams` supplies
no `limit` key, and no filter maps to the key `limit`, the serialized
parameters carry no `limit`; the follow-next condition
(`accumulated.length < undefined`) is then always false, so exactly one
GET is issued and that single response's results are returned as-is, even
when its `next` cursor is non-null. -/
theorem claim_C10_single_get {T : Type} (params : HubRequestParams)
    (extraParams : List (String × ParamVal)) (chain : List (PulpPage T))
    (hpage : params.page = none)
    (hextra : ∀ kv ∈ extraParams, kv.1 ≠ "limit")
    (hfil : ∀ f ∈ params.filters.getD [],
      f.field ++ mapHubOperatorToPulpOperator (jsOrStr f.operator "=") ≠ "limit") :
    getPulpPaginatedResult params extraParams chain =
      chain.head?.map (fun p => ⟨p.results, p.count, params⟩) := by
  unfold getPulpPaginatedResult
  dsimp only
  rw [serialize_limit_none params extraParams hpage hextra hfil]
  cases chain with
  | nil => rfl
  | cons p rest =>
    rw [fetchAllPages_cons]
    rw [if_neg (by simp [jsLtLimit])]
    simp

/-- **C10 amended, witness** A chain whose first page has a truthy `next`:
with no page, no `limit` extra param and no filters, only the first page's
results come back. -/
theorem claim_C10_single_get_witness :
    ((⟨none, none, none⟩ : HubRequestParams).page = none ∧
      (∀ kv ∈ ([] : List (String × ParamVal)), kv.1 ≠ "limit") ∧
      (∀ f ∈ (⟨none, none, none⟩ : HubRequestParams).filters.getD [],
        f.field ++ mapHubOperatorToPulpOperator (jsOrStr f.operator "=") ≠
          "limit")) ∧
    getPulpPaginatedResult (⟨none, none, none⟩ : HubRequestParams) []
      ([⟨["a"], 2, some "next-url"⟩, ⟨["b"], 2, none⟩] : List (PulpPage String)) =
      (([⟨["a"], 2, some "next-url"⟩, ⟨["b"], 2, none⟩] :
        List (PulpPage String)).head?.map
        (fun p => ⟨p.results, p.count, ⟨none, none, none⟩⟩)) :=
  ⟨⟨rfl, by simp, by simp⟩,
    claim_C10_single_get ⟨none, none, none⟩ []
      [⟨["a"], 2, some "next-url"⟩, ⟨["b"], 2, none⟩] rfl (by simp) (by simp)⟩

/-- **C4** Every rendered catalog page contains at most one `Package`
entry per package name: for any accumulated data, search query, filters,
sort, page and page size, the progressive loader's `currentPageItems`
never holds two packages with the same name, and for any fetched Query 2
data and sort the name-first loader's (re-sorted) page items never do
either. -/
theorem claim_C4_unique_names (dateMs : String → ℤ) (now : ℤ)
    (locCmp : String → String → ℤ) (fmtDate : String → Option String)
    (accumulated : List PulpContent) (searchQuery : String)
    (classification license : List String) (sortBy : SortOption)
    (page perPage : ℤ) (resultData : List PulpContent) (sortBy2 : SortOption) :
    ((currentPageItemsProgressive dateMs now locCmp fmtDate accumulated
      searchQuery classification license sortBy page perPage).map
      Package.name).Nodup ∧
    ((sortedPageItems dateMs (query2PageItems fmtDate resultData) sortBy2).map
      Package.name).Nodup := by
  constructor
  · unfold currentPageItemsProgressive
    dsimp only
    apply ((jsSlice_sublist _ _ _).map Package.name).nodup
    exact filteredPackages_names_nodup dateMs now locCmp _ searchQuery
      classification license sortBy
      (transformedPackages_names_nodup fmtDate accumulated)
  · apply (((sortedPageItems_perm dateMs (query2PageItems fmtDate resultData)
      sortBy2).map Package.name).symm).nodup
    unfold query2PageItems
    rw [map_name_transform]
    exact dedupFirstByName_nodup resultData

/-- **C7 counterexample** A failing `fetchNextPulpPage` leaves the loader
state intact and clears the in-flight flag, but no error flag anywhere in
the loader changes: the only error indicator in scope (the initial query's
`error`, the sole error path of the provider) is still `none` after the
rejection, so the caller observes no error indicator, contrary to the
claim. -/
theorem claim_C7_counterexample :
    fetchNextViaEffect (Except.error "network error")
      ⟨⟨[⟨"h", "2024-01-01", "pkg", "1.0", none, none, none, none, none, none,
        none, "f.whl", "py3"⟩], 200, 1, false⟩, none⟩ =
      ⟨⟨[⟨"h", "2024-01-01", "pkg", "1.0", none, none, none, none, none, none,
        none, "f.whl", "py3"⟩], 200, 1, false⟩, none⟩ ∧
    (fetchNextViaEffect (Except.error "network error")
      ⟨⟨[⟨"h", "2024-01-01", "pkg", "1.0", none, none, none, none, none, none,
        none, "f.whl", "py3"⟩], 200, 1, false⟩, none⟩).queryError = none := by
  decide

/-- **C7 amended** After a failing fetch in the progressive loader the
accumulated set is not corrupted: `accumulatedPackages`, `pulpServerTotal`
and `pulpPagesFetched` are unchanged and the in-flight flag is cleared.
The rejection is re-thrown by `fetchNextPulpPage` (whose `try` has no
`catch`), but the pagination effect that calls it ignores the promise, so
no error flag changes; an error flag is surfaced only for the failing
initial-page query, whose boundary leaves the state alone and exposes the
error. -/
theorem claim_C7_error_handling (s : LoaderState) (e : String)
    (h1 : s.isFetchingMore = false)
    (h2 : s.pulpPagesFetched * PULP_PAGE_SIZE < s.pulpServerTotal) :
    (fetchNextPulpPage (Except.error e) s).1.accumulatedPackages =
      s.accumulatedPackages ∧
    (fetchNextPulpPage (Except.error e) s).1.pulpServerTotal =
      s.pulpServerTotal ∧
    (fetchNextPulpPage (Except.error e) s).1.pulpPagesFetched =
      s.pulpPagesFetched ∧
    (fetchNextPulpPage (Except.error e) s).1.isFetchingMore = false ∧
    (fetchNextPulpPage (Except.error e) s).2 = some e ∧
    (∀ o : CatalogObservable, o.state = s →
      (fetchNextViaEffect (Except.error e) o).queryError = o.queryError) ∧
    initialQuerySettle (Except.error e) s = (s, some e) := by
  have hstep : fetchNextPulpPage (Except.error e) s =
      ({ s with isFetchingMore := false }, some e) := by
    unfold fetchNextPulpPage
    rw [if_neg (by rw [h1]; simp), if_neg (by omega)]
  refine ⟨?_, ?_, ?_, ?_, ?_, ?_, rfl⟩ <;>
    first
    | (rw [hstep])
    | (intro o ho; rfl)

/-- **C7 amended, witness** The amended claim at a concrete state: one
accumulated item, server total 200, one page fetched, not in flight. -/
theorem claim_C7_error_handling_witness :
    ((⟨[], 200, 1, false⟩ : LoaderState).isFetchingMore = false ∧
      (⟨[], 200, 1, false⟩ : LoaderState).pulpPagesFetched * PULP_PAGE_SIZE <
        (⟨[], 200, 1, false⟩ : LoaderState).pulpServerTotal) ∧
    (fetchNextPulpPage (Except.error "boom") ⟨[], 200, 1, false⟩).1 =
      ⟨[], 200, 1, false⟩ ∧
    (fetchNextPulpPage (Except.error "boom") ⟨[], 200, 1, false⟩).2 =
      some "boom" ∧
    initialQuerySettle (Except.error "boom") ⟨[], 200, 1, false⟩ =
      (⟨[], 200, 1, false⟩, some "boom") := by
  refine ⟨⟨rfl, by decide⟩, ?_, ?_, ?_⟩
  · have h := (claim_C7_error_handling ⟨[], 200, 1, false⟩ "boom" rfl
      (by decide)).1
    decide
  · exact (claim_C7_error_handling ⟨[], 200, 1, false⟩ "boom" rfl
      (by decide)).2.2.2.2.1
  · exact (claim_C7_error_handling ⟨[], 200, 1, false⟩ "boom" rfl
      (by decide)).2.2.2.2.2.2

/-- **C9 counterexample** A request whose cookies include `keycloak_cookie`
with the empty value and which carries no `Authorization` header: the
claim says the proxy sets `Authorization: Bearer <value>`, but the
handler's truthiness test (`if (bearerToken && ...)`) skips the empty
value and leaves the header unset. -/
theorem claim_C9_counterexample :
    outgoingAuthorization [("keycloak_cookie", "")] none = none ∧
    (none : Option String) ≠ some ("Bearer " ++ "") := by decide

/-- **C9 amended** When the parsed cookies carry `keycloak_cookie` with a
non-empty value and the incoming `Authorization` header is absent or
empty, the proxy sets `Authorization: Bearer <value>`; otherwise — cookie
absent or empty, or a non-empty `Authorization` header already present —
the header is left unchanged. -/
theorem claim_C9_cookie_auth (cookies : List (String × String))
    (auth : Option String) :
    (∀ kv, cookies.find? (fun p => p.1 = "keycloak_cookie") = some kv →
      kv.2 ≠ "" → (auth = none ∨ auth = some "") →
      outgoingAuthorization cookies auth = some ("Bearer " ++ kv.2)) ∧
    ((cookies.find? (fun p => p.1 = "keycloak_cookie") = none ∨
      (∃ kv, cookies.find? (fun p => p.1 = "keycloak_cookie") = some kv ∧
        kv.2 = "") ∨
      (∃ a, auth = some a ∧ a ≠ "")) →
      outgoingAuthorization cookies auth = auth) := by
  constructor
  · intro kv hkv hne hauth
    unfold outgoingAuthorization
    rw [hkv]
    show (if kv.2 ≠ "" ∧ (auth = none ∨ auth = some "") then
      some ("Bearer " ++ kv.2) else auth) = some ("Bearer " ++ kv.2)
    rw [if_pos ⟨hne, hauth⟩]
  · intro h
    unfold outgoingAuthorization
    rcases h with h | ⟨kv, hkv, hkv2⟩ | ⟨a, ha, hne⟩
    · rw [h]
    · rw [hkv]
      show (if kv.2 ≠ "" ∧ (auth = none ∨ auth = some "") then
        some ("Bearer " ++ kv.2) else auth) = auth
      rw [if_neg (by tauto)]
    · cases hf : cookies.find? (fun p => p.1 = "keycloak_cookie") with
      | none => rfl
      | some kv =>
        show (if kv.2 ≠ "" ∧ (auth = none ∨ auth = some "") then
          some ("Bearer " ++ kv.2) else auth) = auth
        rw [if_neg]
        rintro ⟨_, hcase | hcase⟩
        · rw [ha] at hcase
          exact Option.noConfusion hcase
        · rw [ha] at hcase
          injection hcase with hcase2
          exact hne hcase2

/-- **C9 amended, witness** A non-empty cookie with no incoming header
gets a bearer header; a request that already carries a non-empty header is
left unchanged. -/
theorem claim_C9_cookie_auth_witness :
    outgoingAuthorization [("keycloak_cookie", "tok123")] none =
      some ("Bearer " ++ "tok123") ∧
    outgoingAuthorization [("keycloak_cookie", "tok123")] (some "Basic x") =
      some "Basic x" :=
  ⟨(claim_C9_cookie_auth [("keycloak_cookie", "tok123")] none).1
      ("keycloak_cookie", "tok123") (by decide) (by decide) (Or.inl rfl),
    (claim_C9_cookie_auth [("keycloak_cookie", "tok123")] (some "Basic x")).2
      (Or.inr (Or.inr ⟨"Basic x", rfl, by decide⟩))⟩

/-- **C1, witness** The deduplication guarantees at a concrete input with
a duplicated name. -/
theorem claim_C1_dedup_correct_witness :
    ((deduplicateByLatestVersion Prod.fst Prod.snd
      ([("p", "1.0"), ("p", "2.0"), ("q", "1.5")] : List (String × String))).map
      Prod.fst).Nodup ∧
    (∀ o ∈ deduplicateByLatestVersion Prod.fst Prod.snd
      ([("p", "1.0"), ("p", "2.0"), ("q", "1.5")] : List (String × String)),
      o ∈ ([("p", "1.0"), ("p", "2.0"), ("q", "1.5")] : List (String × String))) ∧
    (∀ i ∈ ([("p", "1.0"), ("p", "2.0"), ("q", "1.5")] : List (String × String)),
      i.1 ∈ (deduplicateByLatestVersion Prod.fst Prod.snd
        ([("p", "1.0"), ("p", "2.0"), ("q", "1.5")] :
          List (String × String))).map Prod.fst) ∧
    (∀ o ∈ deduplicateByLatestVersion Prod.fst Prod.snd
      ([("p", "1.0"), ("p", "2.0"), ("q", "1.5")] : List (String × String)),
      ∀ i ∈ ([("p", "1.0"), ("p", "2.0"), ("q", "1.5")] :
        List (String × String)),
      i.1 = o.1 → 0 ≤ compareVersions o.2 i.2) :=
  claim_C1_dedup_correct Prod.fst Prod.snd
    [("p", "1.0"), ("p", "2.0"), ("q", "1.5")]

end Calunga
